import Mathlib

/-!
# Cut scan of `TMVAClassification.C` (section "CALCOLO TAGLIO BDT")

Shallow embedding of the efficiency/purity scan and of the best-cut search
performed on the two BDT score histograms `h_bdt_S` (signal) and `h_bdt_B`
(background), together with the histogram operations the scan calls
(`GetNbinsX`, `GetBinLowEdge`, `Integral`, `FindLastBinAbove`).

Numbers: the C arrays hold `float`s.  In the first embedding (`scan`, `bestCut`)
rounding is not modelled: a finite value is an exact rational.  The non-finite
results of a division by zero are kept apart (`FVal.pinf`, `FVal.ninf`,
`FVal.nan`) and compare as IEEE values do.  A second embedding (`Rounded.scan`,
`Rounded.bestCut`, `TH1.Scale`) rounds every operation as the machine does; it is
used where rounding decides the matter, the scaling of the histograms.
The C arrays have 100 entries; they are modelled as total functions on the
index, so the development speaks of the runs whose indices stay inside them
(the histograms booked by the program have 60 or 65 bins).

The file also embeds the line printed for the suggested cut, the selection of the
methods at the start of `TMVAClassification` (the map `Use`, the names split off
`myMethodList`, the early `return 1`) and the loop of `main` that builds the method
list from the command line.
-/

namespace BDTAna

/-! ## Arithmetic on `float` values -/

/-- Value of a C `float`: a finite number or one of the non-finite values. -/
inductive FVal where
  | fin (q : ℚ)
  | pinf
  | ninf
  | nan
  deriving DecidableEq

/-- Division `a / b` of two finite values (a zero divisor is taken as `+0`). -/
def fdiv (a b : ℚ) : FVal :=
  if b ≠ 0 then FVal.fin (a / b)
  else if 0 < a then FVal.pinf
  else if a < 0 then FVal.ninf
  else FVal.nan

/-- Product `x * y`. -/
def fmul : FVal → FVal → FVal
  | FVal.fin a, FVal.fin b => FVal.fin (a * b)
  | FVal.nan, _ => FVal.nan
  | _, FVal.nan => FVal.nan
  | FVal.fin a, FVal.pinf => if 0 < a then FVal.pinf else if a < 0 then FVal.ninf else FVal.nan
  | FVal.fin a, FVal.ninf => if 0 < a then FVal.ninf else if a < 0 then FVal.pinf else FVal.nan
  | FVal.pinf, FVal.fin b => if 0 < b then FVal.pinf else if b < 0 then FVal.ninf else FVal.nan
  | FVal.ninf, FVal.fin b => if 0 < b then FVal.ninf else if b < 0 then FVal.pinf else FVal.nan
  | FVal.pinf, FVal.pinf => FVal.pinf
  | FVal.pinf, FVal.ninf => FVal.ninf
  | FVal.ninf, FVal.pinf => FVal.ninf
  | FVal.ninf, FVal.ninf => FVal.pinf

/-- Comparison `x >= y`; false as soon as one side is not a number. -/
def fge : FVal → FVal → Bool
  | FVal.nan, _ => false
  | _, FVal.nan => false
  | FVal.pinf, _ => true
  | _, FVal.ninf => true
  | FVal.ninf, _ => false
  | FVal.fin _, FVal.pinf => false
  | FVal.fin a, FVal.fin b => decide (b ≤ a)

/-! ## The histogram operations used by the scan -/

/-- One-dimensional histogram with `fNbins` equal-width bins on `[fXmin, fXmax)`, as
booked by `new TH1F(name, title, nbins, xlow, xup)`.  Bin `0` is the underflow
bin, bins `1 .. fNbins` are the bins of the axis, bin `fNbins + 1` is the
overflow bin; `fArray b` is the content (sum of weights) of bin `b`. -/
structure TH1 where
  fNbins : ℕ
  fXmin : ℚ
  fXmax : ℚ
  fArray : ℕ → ℚ

/-- Number of bins of the axis: `GetNbinsX()`. -/
def TH1.GetNbinsX (h : TH1) : ℤ := h.fNbins

/-- Lower edge of bin `bin` for equal-width bins:
`fXmin + (bin-1) * (fXmax - fXmin) / fNbins`. -/
def TH1.GetBinLowEdge (h : TH1) (bin : ℤ) : ℚ :=
  h.fXmin + ((bin : ℚ) - 1) * ((h.fXmax - h.fXmin) / (h.fNbins : ℚ))

/-- Accumulation loop of `Integral`: adds the contents of the `n` bins
`lo, lo+1, ..., lo+n-1` to an accumulator starting at zero. -/
def sumBins (c : ℕ → ℚ) (lo n : ℕ) : ℚ :=
  (List.range n).foldl (fun acc k => acc + c (lo + k)) 0

/-- Sum of the bin contents of bins `binx1 .. binx2`: `Integral(binx1, binx2)`.
The bounds are clamped as the library does: a negative `binx1` becomes `0`, and a
`binx2` above the overflow bin, or below `binx1`, becomes `fNbins + 1`. -/
def TH1.Integral (h : TH1) (binx1 binx2 : ℤ) : ℚ :=
  let nbinsx : ℤ := h.fNbins
  let b1 : ℤ := if binx1 < 0 then 0 else binx1
  let b2 : ℤ := if binx2 > nbinsx + 1 ∨ binx2 < b1 then nbinsx + 1 else binx2
  sumBins h.fArray b1.toNat (b2 + 1 - b1).toNat

/-- Downward search of `FindLastBinAbove`: looks at bins `b, b-1, ..., 1` and
returns the first whose content exceeds `threshold`, or `-1`. -/
def findLastFrom (c : ℕ → ℚ) (threshold : ℚ) : ℕ → ℤ
  | 0 => -1
  | b + 1 => if c (b + 1) > threshold then ((b + 1 : ℕ) : ℤ) else findLastFrom c threshold b

/-- Last bin of the axis (bins `1 .. fNbins`) with content above `threshold`:
`FindLastBinAbove(threshold, 1)`; `-1` when there is none. -/
def TH1.FindLastBinAbove (h : TH1) (threshold : ℚ) : ℤ :=
  findLastFrom h.fArray threshold h.fNbins

/-! ## The scan loop -/

/-- The arrays filled by the first loop. -/
structure ScanArrays where
  cut : ℕ → ℚ
  tau_integral : ℕ → ℚ
  charm_integral : ℕ → ℚ
  tau_Efficiency : ℕ → FVal
  tau_Purity : ℕ → FVal
  err_Eff : ℕ → ℚ
  err_Pur : ℕ → ℚ

/-- Initial contents: `float a[100]={v}` sets entry `0` to `v` and the others to `0`. -/
def scanInit : ScanArrays where
  cut := fun _ => 0
  tau_integral := fun k => if k = 0 then -9999 else 0
  charm_integral := fun k => if k = 0 then -9999 else 0
  tau_Efficiency := fun k => if k = 0 then FVal.fin (-9999) else FVal.fin 0
  tau_Purity := fun k => if k = 0 then FVal.fin (-9999) else FVal.fin 0
  err_Eff := fun _ => 0
  err_Pur := fun _ => 0

/-- Body of the loop `for (int jj=0; jj<nbinjj; jj++)`. -/
def scanBody (S B : TH1) (bmax : ℤ) (st : ScanArrays) (jj : ℕ) : ScanArrays :=
  let bmin : ℤ := jj
  let cut := Function.update st.cut jj (S.GetBinLowEdge jj)
  let tau_integral := Function.update st.tau_integral jj (S.Integral bmin bmax)
  let charm_integral := Function.update st.charm_integral jj (B.Integral bmin bmax)
  let tau_Efficiency :=
    Function.update st.tau_Efficiency jj (fdiv (tau_integral jj) (tau_integral 0))
  let tau_Purity :=
    Function.update st.tau_Purity jj
      (fdiv (tau_integral jj) (tau_integral jj + charm_integral jj))
  { cut := cut
    tau_integral := tau_integral
    charm_integral := charm_integral
    tau_Efficiency := tau_Efficiency
    tau_Purity := tau_Purity
    err_Eff := Function.update st.err_Eff jj 0
    err_Pur := Function.update st.err_Pur jj 0 }

/-- State of the arrays after the iterations `jj = 0, ..., n-1`. -/
def scanLoop (S B : TH1) (bmax : ℤ) : ℕ → ScanArrays
  | 0 => scanInit
  | n + 1 => scanBody S B bmax (scanLoop S B bmax n) n

/-- Number of candidates: `int nbinjj=h_bdt_S->FindLastBinAbove(0,1)`. -/
def nbinjj (S : TH1) : ℤ := S.FindLastBinAbove 0

/-- The arrays after the whole first loop, with `bmax = h_bdt_S->GetNbinsX()`; the
loop runs for `jj = 0 .. nbinjj-1`, not at all when `nbinjj <= 0`. -/
def scan (S B : TH1) : ScanArrays :=
  scanLoop S B S.GetNbinsX (nbinjj S).toNat

/-! ## The best-cut loop -/

/-- Variables of the second loop; `EP` is declared without initialiser, an entry
that was never written is `none`. -/
structure BestState where
  EP : ℕ → Option FVal
  temp : FVal
  ind : ℕ
  suggestedcut : ℚ

/-- Values before the loop: `temp=0`, `ind=0`, `suggestedcut=0`. -/
def bestInit : BestState where
  EP := fun _ => none
  temp := FVal.fin 0
  ind := 0
  suggestedcut := 0

/-- Body of the loop `for (int jjj=0; jjj<nbinjj; jjj++)`. -/
def bestBody (a : ScanArrays) (st : BestState) (jjj : ℕ) : BestState :=
  let ep := fmul (a.tau_Efficiency jjj) (a.tau_Purity jjj)
  let EP := Function.update st.EP jjj (some ep)
  if fge ep st.temp then
    { EP := EP, temp := ep, ind := jjj, suggestedcut := a.cut jjj }
  else
    { st with EP := EP }

/-- State after the iterations `jjj = 0, ..., n-1`. -/
def bestLoop (a : ScanArrays) : ℕ → BestState
  | 0 => bestInit
  | n + 1 => bestBody a (bestLoop a n) n

/-- The state after the whole second loop. -/
def bestCut (S B : TH1) : BestState :=
  bestLoop (scan S B) (nbinjj S).toNat

/-- Histogram built from a list of bin contents, starting at the underflow bin. -/
def mkTH1 (nbins : ℕ) (xlow xup : ℚ) (contents : List ℚ) : TH1 where
  fNbins := nbins
  fXmin := xlow
  fXmax := xup
  fArray := fun b => contents.getD b 0

/-! ## Sample histograms -/

/-- A signal histogram with three bins on `[0, 3)`: contents `4` (underflow), `10`,
`20`, `6` and an empty overflow bin. -/
def sampleSignal : TH1 := mkTH1 3 0 3 [4, 10, 20, 6, 0]

/-- A background histogram with the binning of `sampleSignal`. -/
def sampleBackground : TH1 := mkTH1 3 0 3 [8, 5, 5, 2, 0]

/-- A one-bin signal histogram whose overflow bin holds weight. -/
def overflowSignal : TH1 := mkTH1 1 0 1 [0, 1, 1]

/-- A signal histogram whose bins `0, 1, 2` have lower edges `0, 1, 2` and weights
`10, 20, 0` (two bins on `[1, 3)`, the weight `10` sitting in bin `0`). -/
def scenarioSignal : TH1 := mkTH1 2 1 3 [10, 20, 0, 0]

/-- The background of the same scenario: weights `5, 5, 0` in bins `0, 1, 2`. -/
def scenarioBackground : TH1 := mkTH1 2 1 3 [5, 5, 0, 0]

/-- The same three signal weights booked as the three bins of the axis `[0, 3)`,
with empty underflow and overflow bins. -/
def scenarioSignalAxis : TH1 := mkTH1 3 0 3 [0, 10, 20, 0, 0]

/-- The background weights booked as the three bins of the axis `[0, 3)`. -/
def scenarioBackgroundAxis : TH1 := mkTH1 3 0 3 [0, 5, 5, 0, 0]

/-- A signal histogram with two bins and no weight at all. -/
def emptySignal : TH1 := mkTH1 2 0 2 [0, 0, 0, 0]

/-- A signal histogram whose only non-empty bin is bin `2` of three. -/
def singleBinSignal : TH1 := mkTH1 3 0 3 [0, 0, 7, 0, 0]

/-- A signal histogram with four equal bins, for the purity profile. -/
def bumpSignal : TH1 := mkTH1 4 0 4 [0, 1, 1, 1, 1, 0]

/-- A background histogram concentrated in bins `1` and `4`. -/
def bumpBackground : TH1 := mkTH1 4 0 4 [0, 10, 0, 0, 10, 0]

/-! ## The line printed for the suggested cut -/

/-- Difference `x - y`. -/
def fsub : FVal → FVal → FVal
  | FVal.fin a, FVal.fin b => FVal.fin (a - b)
  | FVal.nan, _ => FVal.nan
  | _, FVal.nan => FVal.nan
  | FVal.fin _, FVal.pinf => FVal.ninf
  | FVal.fin _, FVal.ninf => FVal.pinf
  | FVal.pinf, FVal.fin _ => FVal.pinf
  | FVal.ninf, FVal.fin _ => FVal.ninf
  | FVal.pinf, FVal.pinf => FVal.nan
  | FVal.pinf, FVal.ninf => FVal.pinf
  | FVal.ninf, FVal.pinf => FVal.ninf
  | FVal.ninf, FVal.ninf => FVal.nan

/-- The three figures streamed by
`cout << "TAGLIO SUGGERITO: " << suggestedcut << " sig: " << ... << "%, bkg: " << ... << "%"`. -/
structure Report where
  suggestedcut : ℚ
  sig : FVal
  bkg : FVal
  deriving DecidableEq

/-- The figures of the line: `suggestedcut`, `tau_Efficiency[ind]*100` and
`100-(charm_integral[ind]/charm_integral[0])*100`. -/
def taglioSuggerito (S B : TH1) : Report :=
  let a := scan S B
  let b := bestCut S B
  { suggestedcut := b.suggestedcut
    sig := fmul (a.tau_Efficiency b.ind) (FVal.fin 100)
    bkg := fsub (FVal.fin 100)
      (fmul (fdiv (a.charm_integral b.ind) (a.charm_integral 0)) (FVal.fin 100)) }

/-- What the section writes to the standard output after the two loops: the line is
printed by a statement outside every condition, hence once in every run. -/
def reportLines (S B : TH1) : List Report := [taglioSuggerito S B]

/-! ## Selection of the methods -/

/-- The map `Use` after the default assignments, in the order of the source. -/
def UseDefault : List (String × ℤ) :=
  [("BDT", 1), ("BDTG", 0), ("BDTB", 0), ("BDTD", 0), ("BDTF", 0), ("RuleFit", 0),
   ("MLP", 0), ("MLPBFGS", 0), ("MLPBNN", 0), ("CFMlpANN", 0), ("TMlpANN", 0),
   ("DNN", 0), ("DNN_GPU", 0), ("DNN_CPU", 0)]

/-- Keys of a `Use` map. -/
def keysOf (u : List (String × ℤ)) : List String := u.map Prod.fst

/-- Loop `for (it = Use.begin(); it != Use.end(); it++) it->second = 0`. -/
def resetAll (u : List (String × ℤ)) : List (String × ℤ) := u.map (fun p => (p.1, 0))

/-- Assignment `Use[k] = v` for a key already in the map. -/
def setFlag (u : List (String × ℤ)) (k : String) (v : ℤ) : List (String × ℤ) :=
  u.map (fun p => if p.1 = k then (p.1, v) else p)

/-- Value read by `Use[k]`; a key that is absent reads as `0`. -/
def flagOf (u : List (String × ℤ)) (k : String) : ℤ := (u.lookup k).getD 0

/-- Tokens of a character list: the maximal runs without the separator, in order;
`cur` holds the run being read, last character first. -/
def splitRuns (separator : Char) : List Char → List Char → List String
  | [], cur => if cur = [] then [] else [String.mk cur.reverse]
  | c :: cs, cur =>
    if c = separator then
      (if cur = [] then splitRuns separator cs []
       else String.mk cur.reverse :: splitRuns separator cs [])
    else splitRuns separator cs (c :: cur)

/-- The library call `TMVA::gTools().SplitString(theOpt, separator)`: line feeds are
replaced by blanks, separators at both ends are stripped, and the pieces between
(runs of) separators are returned in order, none of them empty. -/
def SplitString (theOpt : String) (separator : Char) : List String :=
  splitRuns separator
    (theOpt.data.map (fun c => if c = Char.ofNat 10 then Char.ofNat 32 else c)) []

/-- Loop over `mlist`: an unknown name ends the function with `return 1`, a known
one is switched on. -/
def selectLoop : List String → List (String × ℤ) → Except ℤ (List (String × ℤ))
  | [], u => Except.ok u
  | regMethod :: rest, u =>
    if regMethod ∈ keysOf u then selectLoop rest (setFlag u regMethod 1)
    else Except.error 1

/-- The block "Select methods": with a non-empty list every flag is first reset. -/
def selectMethods (myMethodList : String) : Except ℤ (List (String × ℤ)) :=
  if myMethodList ≠ "" then
    selectLoop (SplitString myMethodList (Char.ofNat 44)) (resetAll UseDefault)
  else Except.ok UseDefault

/-- Calls made on the factory. -/
inductive Action where
  | book (method : String)
  | trainAll
  | testAll
  | evaluateAll
  deriving DecidableEq

/-- Names tested by the `if (Use[...]) factory->BookMethod(...)` statements, in the
order of the source. -/
def bookingOrder : List String :=
  ["MLP", "MLPBFGS", "MLPBNN", "CFMlpANN", "TMlpANN", "BDTG", "BDT", "BDTB", "BDTD",
   "BDTF", "RuleFit"]

/-- Return value of `TMVAClassification(myMethodList)` and the calls it makes on the
factory (reading of the data, filling of histograms and drawing are left out). -/
def TMVAClassification (myMethodList : String) : ℤ × List Action :=
  match selectMethods myMethodList with
  | Except.error rc => (rc, [])
  | Except.ok Use =>
    (0, (bookingOrder.filter (fun k => flagOf Use k ≠ 0)).map Action.book ++
      [Action.trainAll, Action.testAll, Action.evaluateAll])

/-! ## The command line -/

/-- Loop of `main` over `argv[1] .. argv[argc-1]`, building `methodList`. -/
def mainLoop (args : List String) : String :=
  args.foldl
    (fun methodList regMethod =>
      if regMethod = "-b" ∨ regMethod = "--batch" then methodList
      else (if methodList ≠ "" then methodList ++ "," else methodList) ++ regMethod)
    ""

/-- The program entry `main`: returns `TMVAClassification(methodList)`. -/
def main (args : List String) : ℤ × List Action := TMVAClassification (mainLoop args)

/-! ## Booking of the score histograms -/

/-- The signal score histogram as booked for a channel, with given bin contents:
`new TH1F("h_bdt_S", ..., 60, -0.8, 0.9)` when `channel==2||channel==4`, otherwise
`new TH1F("h_bdt_S", ..., 65, -0.8, 0.8)`. -/
def h_bdt_S (channel : ℤ) (contents : ℕ → ℚ) : TH1 :=
  if channel = 2 ∨ channel = 4 then
    { fNbins := 60, fXmin := -8 / 10, fXmax := 9 / 10, fArray := contents }
  else
    { fNbins := 65, fXmin := -8 / 10, fXmax := 8 / 10, fArray := contents }

/-- The background score histogram as booked for a channel, with the same binning
as the signal one. -/
def h_bdt_B (channel : ℤ) (contents : ℕ → ℚ) : TH1 :=
  if channel = 2 ∨ channel = 4 then
    { fNbins := 60, fXmin := -8 / 10, fXmax := 9 / 10, fArray := contents }
  else
    { fNbins := 65, fXmin := -8 / 10, fXmax := 8 / 10, fArray := contents }

/-- Length of the arrays `cut`, `tau_integral`, `charm_integral`, `tau_Efficiency`,
`tau_Purity`, `err_Eff`, `err_Pur` and `EP`. -/
def arrayLength : ℕ := 100

/-- The subscripts of iteration `jj` of the first loop, array by array, in the order
of the statements. -/
def scanBodySubscripts (jj : ℕ) : List (String × ℕ) :=
  [("cut", jj), ("tau_integral", jj), ("charm_integral", jj),
   ("tau_Efficiency", jj), ("tau_integral", jj), ("tau_integral", 0),
   ("tau_Purity", jj), ("tau_integral", jj), ("tau_integral", jj), ("charm_integral", jj),
   ("err_Eff", jj), ("err_Pur", jj)]

/-- The subscripts of iteration `jjj` of the second loop; the last two, `cut[jjj]`
and `EP[jjj]`, are used when the comparison succeeds. -/
def bestBodySubscripts (jjj : ℕ) : List (String × ℕ) :=
  [("EP", jjj), ("tau_Efficiency", jjj), ("tau_Purity", jjj), ("EP", jjj), ("cut", jjj),
   ("EP", jjj)]

/-- All subscripts of the two loops when each runs for `jj = 0 .. n-1`. -/
def loopSubscripts (n : ℕ) : List (String × ℕ) :=
  ((List.range n).map scanBodySubscripts).flatten ++
    ((List.range n).map bestBodySubscripts).flatten

/-- A signal histogram with a negative weight in bin `1`. -/
def negativeSignal : TH1 := mkTH1 2 0 2 [0, -1, 1, 0]

/-- A background histogram with two bins of weight `1`. -/
def flatBackground : TH1 := mkTH1 2 0 2 [0, 1, 1, 0]

/-! ## The scan in the arithmetic of the machine

The histograms are `TH1F`: their contents are `float`s.  `Integral` accumulates in
`double`, `Scale` multiplies in `double` and stores `float`s, and the arrays of the
scan are `float` arrays, so every quotient, sum and product of the scan is rounded
to `float`.  Rounding is to the nearest value, ties to the even significand; the
range of the exponent is not modelled (no overflow, no subnormal numbers). -/

/-- The power `2^k` of an integer exponent. -/
def pow2 (k : ℤ) : ℚ := (2 : ℚ) ^ k

/-- Number of halvings that bring `n` below `2`, with a bound on the recursion. -/
def log2Fuel : ℕ → ℕ → ℕ
  | 0, _ => 0
  | fuel + 1, n => if n < 2 then 0 else log2Fuel fuel (n / 2) + 1

/-- Position of the leading binary digit of `n`. -/
def nlog2 (n : ℕ) : ℕ := log2Fuel n n

/-- Binary exponent of a positive number `a`: the `e` with `2^e <= a < 2^(e+1)`. -/
def ilog2 (a : ℚ) : ℤ :=
  let l : ℤ := (nlog2 a.num.natAbs : ℤ) - (nlog2 a.den : ℤ)
  if pow2 l ≤ a then l else l - 1

/-- Nearest integer, a tie going to the even one. -/
def roundHalfEven (m : ℚ) : ℤ :=
  let f : ℤ := ⌊m⌋
  let t : ℚ := m - f
  if t < 1 / 2 then f else if 1 / 2 < t then f + 1 else if f % 2 = 0 then f else f + 1

/-- Nearest number with a significand of `p` binary digits. -/
def roundSig (p : ℕ) (q : ℚ) : ℚ :=
  if q = 0 then 0
  else
    let a : ℚ := |q|
    let e : ℤ := ilog2 a
    let r : ℤ := roundHalfEven (a * pow2 ((p : ℤ) - 1 - e))
    (if 0 < q then (r : ℚ) else -(r : ℚ)) * pow2 (e - ((p : ℤ) - 1))

/-- Conversion to `float` (24 binary digits). -/
def toFloat (q : ℚ) : ℚ := roundSig 24 q

/-- Conversion to `double` (53 binary digits). -/
def toDouble (q : ℚ) : ℚ := roundSig 53 q

/-- Quotient `a / b` of two `float`s, as a `float`. -/
def fdivF (a b : ℚ) : FVal :=
  if b ≠ 0 then FVal.fin (toFloat (a / b))
  else if 0 < a then FVal.pinf
  else if a < 0 then FVal.ninf
  else FVal.nan

/-- Product `x * y` of two `float`s, as a `float`. -/
def fmulF : FVal → FVal → FVal
  | FVal.fin a, FVal.fin b => FVal.fin (toFloat (a * b))
  | x, y => fmul x y

/-- The call `h->Scale(c1)` on a `TH1F`: each content is multiplied by the `double`
`c1` in `double` and stored as a `float`. -/
def TH1.Scale (h : TH1) (c1 : ℚ) : TH1 :=
  { h with fArray := fun b => toFloat (toDouble (c1 * h.fArray b)) }

/-- Accumulation loop of `Integral` in `double`: `integral += content` for the `n`
bins from `lo` on. -/
def Rounded.sumBins (c : ℕ → ℚ) (lo n : ℕ) : ℚ :=
  (List.range n).foldl (fun acc k => toDouble (acc + c (lo + k))) 0

/-- `Integral(binx1, binx2)` as a `double`, with the bounds clamped as in
`TH1.Integral`. -/
def Rounded.Integral (h : TH1) (binx1 binx2 : ℤ) : ℚ :=
  let nbinsx : ℤ := h.fNbins
  let b1 : ℤ := if binx1 < 0 then 0 else binx1
  let b2 : ℤ := if binx2 > nbinsx + 1 ∨ binx2 < b1 then nbinsx + 1 else binx2
  Rounded.sumBins h.fArray b1.toNat (b2 + 1 - b1).toNat

/-- `GetBinLowEdge(bin)` as a `double`: `binwidth = (fXmax - fXmin) / fNbins`, then
`fXmin + (bin-1) * binwidth`, the axis limits being stored as `double`s. -/
def Rounded.GetBinLowEdge (h : TH1) (bin : ℤ) : ℚ :=
  let binwidth : ℚ := toDouble (toDouble (toDouble h.fXmax - toDouble h.fXmin) / (h.fNbins : ℚ))
  toDouble (toDouble h.fXmin + toDouble (((bin : ℚ) - 1) * binwidth))

/-- Body of the first loop with `float` arrays. -/
def Rounded.scanBody (S B : TH1) (bmax : ℤ) (st : ScanArrays) (jj : ℕ) : ScanArrays :=
  let bmin : ℤ := jj
  let cut := Function.update st.cut jj (toFloat (Rounded.GetBinLowEdge S jj))
  let tau_integral :=
    Function.update st.tau_integral jj (toFloat (Rounded.Integral S bmin bmax))
  let charm_integral :=
    Function.update st.charm_integral jj (toFloat (Rounded.Integral B bmin bmax))
  let tau_Efficiency :=
    Function.update st.tau_Efficiency jj (fdivF (tau_integral jj) (tau_integral 0))
  let tau_Purity :=
    Function.update st.tau_Purity jj
      (fdivF (tau_integral jj) (toFloat (tau_integral jj + charm_integral jj)))
  { cut := cut
    tau_integral := tau_integral
    charm_integral := charm_integral
    tau_Efficiency := tau_Efficiency
    tau_Purity := tau_Purity
    err_Eff := Function.update st.err_Eff jj 0
    err_Pur := Function.update st.err_Pur jj 0 }

/-- The `float` arrays after the iterations `jj = 0, ..., n-1`. -/
def Rounded.scanLoop (S B : TH1) (bmax : ℤ) : ℕ → ScanArrays
  | 0 => scanInit
  | n + 1 => Rounded.scanBody S B bmax (Rounded.scanLoop S B bmax n) n

/-- The `float` arrays after the whole first loop. -/
def Rounded.scan (S B : TH1) : ScanArrays :=
  Rounded.scanLoop S B S.GetNbinsX (nbinjj S).toNat

/-- Body of the second loop with the `float` product. -/
def Rounded.bestBody (a : ScanArrays) (st : BestState) (jjj : ℕ) : BestState :=
  let ep := fmulF (a.tau_Efficiency jjj) (a.tau_Purity jjj)
  let EP := Function.update st.EP jjj (some ep)
  if fge ep st.temp then
    { EP := EP, temp := ep, ind := jjj, suggestedcut := a.cut jjj }
  else
    { st with EP := EP }

/-- State of the second loop after the iterations `jjj = 0, ..., n-1`. -/
def Rounded.bestLoop (a : ScanArrays) : ℕ → BestState
  | 0 => bestInit
  | n + 1 => Rounded.bestBody a (Rounded.bestLoop a n) n

/-- The state after the whole second loop, on the `float` arrays. -/
def Rounded.bestCut (S B : TH1) : BestState :=
  Rounded.bestLoop (Rounded.scan S B) (nbinjj S).toNat

/-- A signal histogram with three bins and weights `2` and `4` in bins `1` and `3`. -/
def tiedSignal : TH1 := mkTH1 3 0 3 [0, 2, 0, 4, 0]

/-- A background histogram with weight `3` in bin `1`. -/
def tiedBackground : TH1 := mkTH1 3 0 3 [0, 3, 0, 0, 0]

/-! ## Auxiliary facts -/

theorem fmul_fin (a b : ℚ) : fmul (FVal.fin a) (FVal.fin b) = FVal.fin (a * b) := rfl

theorem fge_fin (a b : ℚ) : fge (FVal.fin a) (FVal.fin b) = decide (b ≤ a) := rfl

theorem fdiv_of_ne (a b : ℚ) (hb : b ≠ 0) : fdiv a b = FVal.fin (a / b) := by
  simp [fdiv, hb]

theorem sumBins_snoc (c : ℕ → ℚ) (lo n : ℕ) :
    sumBins c lo (n + 1) = sumBins c lo n + c (lo + n) := by
  simp [sumBins, List.range_succ, List.foldl_append]

theorem sumBins_eq_sum (c : ℕ → ℚ) (lo n : ℕ) :
    sumBins c lo n = ∑ k in Finset.range n, c (lo + k) := by
  induction n with
  | zero => simp [sumBins]
  | succ n ih => rw [sumBins_snoc, ih, Finset.sum_range_succ]

/-- For a first bin inside the axis range, `Integral(i, GetNbinsX())` is the sum of
the contents of bins `i .. fNbins` (underflow included when `i = 0`, overflow
excluded). -/
theorem Integral_eq_sum (h : TH1) (i : ℕ) (hi : i ≤ h.fNbins) :
    h.Integral (i : ℤ) h.GetNbinsX = ∑ k in Finset.Icc i h.fNbins, h.fArray k := by
  have h1 : ¬ ((i : ℤ) < 0) := by omega
  have h2 : ¬ ((h.fNbins : ℤ) > (h.fNbins : ℤ) + 1 ∨ (h.fNbins : ℤ) < (i : ℤ)) := by omega
  have h3 : ((h.fNbins : ℤ) + 1 - (i : ℤ)).toNat = h.fNbins + 1 - i := by omega
  simp only [TH1.Integral, TH1.GetNbinsX, h1, h2, if_false, Int.toNat_ofNat, h3]
  rw [sumBins_eq_sum, ← Nat.Ico_succ_right, Finset.sum_Ico_eq_sum_range]

/-- The downward search returns `-1` or a bin of `1 .. b` whose content exceeds the
threshold. -/
theorem findLastFrom_spec (c : ℕ → ℚ) (t : ℚ) (b : ℕ) :
    findLastFrom c t b = -1 ∨
      ∃ r : ℕ, findLastFrom c t b = (r : ℤ) ∧ 1 ≤ r ∧ r ≤ b ∧ t < c r := by
  induction b with
  | zero => left; rfl
  | succ b ih =>
    unfold findLastFrom
    by_cases hc : c (b + 1) > t
    · right
      exact ⟨b + 1, by simp [hc], by omega, le_refl _, hc⟩
    · rw [if_neg hc]
      rcases ih with h | ⟨r, hr, h1, h2, h3⟩
      · left; exact h
      · right; exact ⟨r, hr, h1, by omega, h3⟩

/-- Every bin of `1 .. b` above the returned one has content at most the threshold. -/
theorem findLastFrom_above (c : ℕ → ℚ) (t : ℚ) (b k : ℕ)
    (hk : findLastFrom c t b < (k : ℤ)) (h1 : 1 ≤ k) (hkb : k ≤ b) : c k ≤ t := by
  induction b with
  | zero => omega
  | succ b ih =>
    unfold findLastFrom at hk
    by_cases hc : c (b + 1) > t
    · rw [if_pos hc] at hk
      push_cast at hk
      omega
    · rw [if_neg hc] at hk
      rcases Nat.eq_or_lt_of_le hkb with h | h
      · subst h; exact not_lt.mp hc
      · exact ih hk (by omega)

/-- A candidate index lies below a bin of the axis with positive signal content. -/
theorem candidate_bin (S : TH1) (i : ℕ) (hi : (i : ℤ) < nbinjj S) :
    ∃ r : ℕ, nbinjj S = (r : ℤ) ∧ i < r ∧ r ≤ S.fNbins ∧ 0 < S.fArray r := by
  rcases findLastFrom_spec S.fArray 0 S.fNbins with h | ⟨r, hr, _, h2, h3⟩
  · simp only [nbinjj, TH1.FindLastBinAbove, h] at hi
    omega
  · refine ⟨r, hr, ?_, h2, h3⟩
    simp only [nbinjj, TH1.FindLastBinAbove, hr] at hi
    exact_mod_cast hi

/-- With non-negative contents the tail sum of a candidate is positive. -/
theorem tail_pos (S : TH1) (hS : ∀ k, 0 ≤ S.fArray k) (i : ℕ) (hi : (i : ℤ) < nbinjj S) :
    0 < ∑ k in Finset.Icc i S.fNbins, S.fArray k := by
  obtain ⟨r, _, hir, hrN, hpos⟩ := candidate_bin S i hi
  have hmem : r ∈ Finset.Icc i S.fNbins := Finset.mem_Icc.mpr ⟨by omega, hrN⟩
  exact lt_of_lt_of_le hpos
    (Finset.single_le_sum (f := S.fArray) (fun k _ => hS k) hmem)

/-- With non-negative contents every tail sum is non-negative. -/
theorem tail_nonneg (B : TH1) (hB : ∀ k, 0 ≤ B.fArray k) (i n : ℕ) :
    0 ≤ ∑ k in Finset.Icc i n, B.fArray k :=
  Finset.sum_nonneg (fun k _ => hB k)

/-- Tail sums shrink as the first bin moves up. -/
theorem tail_antitone (S : TH1) (hS : ∀ k, 0 ≤ S.fArray k) (i j n : ℕ) (hij : i ≤ j) :
    ∑ k in Finset.Icc j n, S.fArray k ≤ ∑ k in Finset.Icc i n, S.fArray k := by
  apply Finset.sum_le_sum_of_subset_of_nonneg
  · exact Finset.Icc_subset_Icc_left hij
  · intro k _ _; exact hS k

theorem scanLoop_tau_integral (S B : TH1) (bmax : ℤ) (n i : ℕ) (hi : i < n) :
    (scanLoop S B bmax n).tau_integral i = S.Integral (i : ℤ) bmax := by
  induction n with
  | zero => omega
  | succ n ih =>
    simp only [scanLoop, scanBody, Function.update_apply]
    by_cases h : i = n
    · simp [h]
    · rw [if_neg h]; exact ih (by omega)

theorem scanLoop_charm_integral (S B : TH1) (bmax : ℤ) (n i : ℕ) (hi : i < n) :
    (scanLoop S B bmax n).charm_integral i = B.Integral (i : ℤ) bmax := by
  induction n with
  | zero => omega
  | succ n ih =>
    simp only [scanLoop, scanBody, Function.update_apply]
    by_cases h : i = n
    · simp [h]
    · rw [if_neg h]; exact ih (by omega)

theorem scanLoop_cut (S B : TH1) (bmax : ℤ) (n i : ℕ) (hi : i < n) :
    (scanLoop S B bmax n).cut i = S.GetBinLowEdge (i : ℤ) := by
  induction n with
  | zero => omega
  | succ n ih =>
    simp only [scanLoop, scanBody, Function.update_apply]
    by_cases h : i = n
    · simp [h]
    · rw [if_neg h]; exact ih (by omega)

theorem scanLoop_tau_Efficiency (S B : TH1) (bmax : ℤ) (n i : ℕ) (hi : i < n) :
    (scanLoop S B bmax n).tau_Efficiency i =
      fdiv (S.Integral (i : ℤ) bmax) (S.Integral (0 : ℤ) bmax) := by
  induction n with
  | zero => omega
  | succ n ih =>
    simp only [scanLoop, scanBody, Function.update_apply]
    by_cases h : i = n
    · subst h
      by_cases h0 : 0 = i
      · subst h0; simp
      · have := scanLoop_tau_integral S B bmax i 0 (by omega)
        simp [h0, this]
    · rw [if_neg h]; exact ih (by omega)

theorem scanLoop_tau_Purity (S B : TH1) (bmax : ℤ) (n i : ℕ) (hi : i < n) :
    (scanLoop S B bmax n).tau_Purity i =
      fdiv (S.Integral (i : ℤ) bmax) (S.Integral (i : ℤ) bmax + B.Integral (i : ℤ) bmax) := by
  induction n with
  | zero => omega
  | succ n ih =>
    simp only [scanLoop, scanBody, Function.update_apply]
    by_cases h : i = n
    · simp [h]
    · rw [if_neg h]; exact ih (by omega)

theorem sumBins_nonneg (c : ℕ → ℚ) (hc : ∀ k, 0 ≤ c k) (lo n : ℕ) : 0 ≤ sumBins c lo n := by
  rw [sumBins_eq_sum]
  exact Finset.sum_nonneg (fun k _ => hc (lo + k))

theorem Integral_nonneg (h : TH1) (hc : ∀ k, 0 ≤ h.fArray k) (b1 b2 : ℤ) :
    0 ≤ h.Integral b1 b2 := by
  unfold TH1.Integral
  exact sumBins_nonneg h.fArray hc _ _

/-- Invariant of the running maximum, for products that are finite and
non-negative on the indices visited. -/
theorem bestLoop_inv (a : ScanArrays) (g : ℕ → ℚ) (n : ℕ)
    (hg : ∀ j, j < n → fmul (a.tau_Efficiency j) (a.tau_Purity j) = FVal.fin (g j) ∧ 0 ≤ g j) :
    ∃ t : ℚ, (bestLoop a n).temp = FVal.fin t ∧ (n = 0 → t = 0) ∧
      (∀ j, j < n → g j ≤ t) ∧
      (∀ j, j < n → (bestLoop a n).EP j = some (FVal.fin (g j))) ∧
      (0 < n → (bestLoop a n).ind < n ∧ t = g (bestLoop a n).ind ∧
        (bestLoop a n).suggestedcut = a.cut (bestLoop a n).ind ∧
        ∀ j, (bestLoop a n).ind < j → j < n → g j < t) := by
  induction n with
  | zero =>
    exact ⟨0, rfl, fun _ => rfl, fun j hj => absurd hj (Nat.not_lt_zero j),
      fun j hj => absurd hj (Nat.not_lt_zero j), fun h => absurd h (Nat.lt_irrefl 0)⟩
  | succ n ih =>
    obtain ⟨t, ht, h0, hmax, hEP, hind⟩ := ih (fun j hj => hg j (by omega))
    obtain ⟨hgn, hgn0⟩ := hg n (by omega)
    have hEPn : ∀ (E : ℕ → Option FVal), (∀ j, j < n → E j = some (FVal.fin (g j))) →
        ∀ j, j < n + 1 →
          Function.update E n (some (FVal.fin (g n))) j = some (FVal.fin (g j)) := by
      intro E hE j hj
      rw [Function.update_apply]
      by_cases h : j = n
      · simp [h]
      · rw [if_neg h]; exact hE j (by omega)
    by_cases hcmp : t ≤ g n
    · have hstep : bestLoop a (n + 1) =
          { EP := Function.update (bestLoop a n).EP n (some (FVal.fin (g n)))
            temp := FVal.fin (g n), ind := n, suggestedcut := a.cut n } := by
        simp [bestLoop, bestBody, hgn, ht, fge_fin, hcmp]
      rw [hstep]
      refine ⟨g n, rfl, fun h => by omega, ?_, hEPn _ hEP, fun _ => ⟨by simp, rfl, rfl, ?_⟩⟩
      · intro j hj
        rcases Nat.eq_or_lt_of_le (Nat.lt_succ_iff.mp hj) with h | h
        · rw [h]
        · exact le_trans (hmax j h) hcmp
      · intro j h1 h2
        simp only at h1
        omega
    · have hstep : bestLoop a (n + 1) =
          { bestLoop a n with
            EP := Function.update (bestLoop a n).EP n (some (FVal.fin (g n))) } := by
        simp [bestLoop, bestBody, hgn, ht, fge_fin, hcmp]
      have hn : 0 < n := by
        rcases Nat.eq_zero_or_pos n with h | h
        · exfalso; apply hcmp; rw [h0 h]; exact hgn0
        · exact h
      obtain ⟨hi1, hi2, hi3, hi4⟩ := hind hn
      rw [hstep]
      refine ⟨t, ht, fun h => by omega, ?_, hEPn _ hEP, fun _ => ⟨?_, hi2, hi3, ?_⟩⟩
      · intro j hj
        rcases Nat.eq_or_lt_of_le (Nat.lt_succ_iff.mp hj) with h | h
        · rw [h]; exact le_of_lt (not_le.mp hcmp)
        · exact hmax j h
      · show (bestLoop a n).ind < n + 1
        omega
      · intro j h1 h2
        rcases Nat.eq_or_lt_of_le (Nat.lt_succ_iff.mp h2) with h | h
        · rw [h]; exact not_le.mp hcmp
        · exact hi4 j h1 h

theorem candidate_lt (S : TH1) (i : ℕ) (hi : (i : ℤ) < nbinjj S) :
    i < (nbinjj S).toNat ∧ i ≤ S.fNbins := by
  obtain ⟨r, hr, hir, hrN, _⟩ := candidate_bin S i hi
  constructor
  · rw [hr]; simpa using hir
  · omega

/-- Stored signal tail of a candidate. -/
theorem scan_tau_integral (S B : TH1) (i : ℕ) (hi : (i : ℤ) < nbinjj S) :
    (scan S B).tau_integral i = ∑ k in Finset.Icc i S.fNbins, S.fArray k := by
  obtain ⟨h1, h2⟩ := candidate_lt S i hi
  rw [scan, scanLoop_tau_integral S B _ _ i h1, Integral_eq_sum S i h2]

/-- Stored background tail of a candidate, for histograms with the same number of bins. -/
theorem scan_charm_integral (S B : TH1) (hN : B.fNbins = S.fNbins) (i : ℕ)
    (hi : (i : ℤ) < nbinjj S) :
    (scan S B).charm_integral i = ∑ k in Finset.Icc i S.fNbins, B.fArray k := by
  obtain ⟨h1, h2⟩ := candidate_lt S i hi
  have hx : S.GetNbinsX = B.GetNbinsX := by simp [TH1.GetNbinsX, hN]
  rw [scan, scanLoop_charm_integral S B _ _ i h1, hx, Integral_eq_sum B i (by omega), hN]

/-- Stored efficiency of a candidate, as a finite quotient of tail sums. -/
theorem scan_tau_Efficiency (S B : TH1) (hS : ∀ k, 0 ≤ S.fArray k) (i : ℕ)
    (hi : (i : ℤ) < nbinjj S) :
    (scan S B).tau_Efficiency i =
      FVal.fin ((∑ k in Finset.Icc i S.fNbins, S.fArray k) /
        (∑ k in Finset.Icc 0 S.fNbins, S.fArray k)) := by
  obtain ⟨h1, h2⟩ := candidate_lt S i hi
  have h0 : ((0 : ℕ) : ℤ) < nbinjj S := by omega
  have hpos := tail_pos S hS 0 h0
  rw [scan, scanLoop_tau_Efficiency S B _ _ i h1, Integral_eq_sum S i h2]
  have hz : S.Integral (0 : ℤ) S.GetNbinsX = ∑ k in Finset.Icc 0 S.fNbins, S.fArray k :=
    Integral_eq_sum S 0 (Nat.zero_le _)
  rw [hz, fdiv_of_ne _ _ (ne_of_gt hpos)]

/-- Stored purity of a candidate, as a finite quotient with a positive divisor. -/
theorem scan_tau_Purity (S B : TH1) (hS : ∀ k, 0 ≤ S.fArray k) (hB : ∀ k, 0 ≤ B.fArray k)
    (i : ℕ) (hi : (i : ℤ) < nbinjj S) :
    (scan S B).tau_Purity i =
      FVal.fin ((∑ k in Finset.Icc i S.fNbins, S.fArray k) /
        ((∑ k in Finset.Icc i S.fNbins, S.fArray k) + B.Integral (i : ℤ) S.GetNbinsX)) ∧
      0 < (∑ k in Finset.Icc i S.fNbins, S.fArray k) + B.Integral (i : ℤ) S.GetNbinsX := by
  obtain ⟨h1, h2⟩ := candidate_lt S i hi
  have hpos := tail_pos S hS i hi
  have hb := Integral_nonneg B hB (i : ℤ) S.GetNbinsX
  have hden : 0 < (∑ k in Finset.Icc i S.fNbins, S.fArray k) + B.Integral (i : ℤ) S.GetNbinsX :=
    by linarith
  refine ⟨?_, hden⟩
  rw [scan, scanLoop_tau_Purity S B _ _ i h1, Integral_eq_sum S i h2,
    fdiv_of_ne _ _ (ne_of_gt hden)]

theorem mkTH1_nonneg (n : ℕ) (lo hi : ℚ) (l : List ℚ) (h : ∀ x ∈ l, 0 ≤ x) (k : ℕ) :
    0 ≤ (mkTH1 n lo hi l).fArray k := by
  simp only [mkTH1, List.getD_eq_getElem?_getD]
  rcases hk : l[k]? with _ | x
  · simp
  · simp only [Option.getD_some]
    exact h x (List.getElem?_mem hk)

theorem sampleSignal_nonneg (k : ℕ) : 0 ≤ sampleSignal.fArray k :=
  mkTH1_nonneg _ _ _ _ (by decide) k

theorem sampleBackground_nonneg (k : ℕ) : 0 ≤ sampleBackground.fArray k :=
  mkTH1_nonneg _ _ _ _ (by decide) k

/-! ## Efficiency and purity of the candidates -/

/-- C1: for non-negative signal weights and every candidate index `i` (`i < nbinjj`,
which forces a positive total signal weight), the stored signal tail
`tau_integral[i]` is `Integral(i, GetNbinsX())`, the sum of the signal weights over
bins `i .. N`, and the stored efficiency is `tau_integral[i] / tau_integral[0]`,
the tail sum from `i` divided by the tail sum from `0`. -/
theorem C1_efficiency_is_tail_ratio (S B : TH1) (hS : ∀ k, 0 ≤ S.fArray k) (i : ℕ)
    (hi : (i : ℤ) < nbinjj S) :
    (scan S B).tau_integral i = S.Integral (i : ℤ) S.GetNbinsX ∧
    (scan S B).tau_integral i = ∑ k in Finset.Icc i S.fNbins, S.fArray k ∧
    (scan S B).tau_Efficiency i =
      FVal.fin ((scan S B).tau_integral i / (scan S B).tau_integral 0) ∧
    (scan S B).tau_Efficiency i =
      FVal.fin ((∑ k in Finset.Icc i S.fNbins, S.fArray k) /
        (∑ k in Finset.Icc 0 S.fNbins, S.fArray k)) := by
  have h0 : ((0 : ℕ) : ℤ) < nbinjj S := by omega
  refine ⟨?_, scan_tau_integral S B i hi, ?_, scan_tau_Efficiency S B hS i hi⟩
  · rw [scan, scanLoop_tau_integral S B _ _ i (candidate_lt S i hi).1]
  · rw [scan_tau_integral S B i hi, scan_tau_integral S B 0 h0]
    exact scan_tau_Efficiency S B hS i hi

/-- C2: for non-negative weights in two histograms with the same number of bins and
every candidate index `i`, the stored purity is
`sigTail[i] / (sigTail[i] + bkgTail[i])`, both tails being sums over the same bins
`i .. N`, and `charm_integral[i]` holds that background tail. -/
theorem C2_purity_is_tail_ratio (S B : TH1) (hS : ∀ k, 0 ≤ S.fArray k)
    (hB : ∀ k, 0 ≤ B.fArray k) (hN : B.fNbins = S.fNbins) (i : ℕ)
    (hi : (i : ℤ) < nbinjj S) :
    (scan S B).charm_integral i = ∑ k in Finset.Icc i S.fNbins, B.fArray k ∧
    (scan S B).tau_Purity i =
      FVal.fin ((∑ k in Finset.Icc i S.fNbins, S.fArray k) /
        ((∑ k in Finset.Icc i S.fNbins, S.fArray k) +
          (∑ k in Finset.Icc i S.fNbins, B.fArray k))) := by
  obtain ⟨h1, h2⟩ := candidate_lt S i hi
  have hc := scan_charm_integral S B hN i hi
  refine ⟨hc, ?_⟩
  rw [(scan_tau_Purity S B hS hB i hi).1, ← hc, scan, scanLoop_charm_integral S B _ _ i h1]

/-- Summary of the second loop on a valid input: the products are finite numbers
`g j`, and once a candidate exists the loop ends on a candidate `ind` whose
product is the largest, strictly larger than that of every later candidate. -/
theorem bestCut_spec (S B : TH1) (hS : ∀ k, 0 ≤ S.fArray k) (hB : ∀ k, 0 ≤ B.fArray k) :
    ∃ g : ℕ → ℚ,
      (∀ j : ℕ, (j : ℤ) < nbinjj S →
        fmul ((scan S B).tau_Efficiency j) ((scan S B).tau_Purity j) = FVal.fin (g j) ∧
        (bestCut S B).EP j = some (FVal.fin (g j)) ∧ 0 < g j) ∧
      (0 < nbinjj S →
        ((bestCut S B).ind : ℤ) < nbinjj S ∧
        (bestCut S B).temp = FVal.fin (g (bestCut S B).ind) ∧
        (bestCut S B).suggestedcut = (scan S B).cut (bestCut S B).ind ∧
        (∀ j : ℕ, (j : ℤ) < nbinjj S → g j ≤ g (bestCut S B).ind) ∧
        (∀ j : ℕ, (j : ℤ) < nbinjj S → (bestCut S B).ind < j → g j < g (bestCut S B).ind)) := by
  let g : ℕ → ℚ := fun j =>
    ((∑ k in Finset.Icc j S.fNbins, S.fArray k) / (∑ k in Finset.Icc 0 S.fNbins, S.fArray k)) *
    ((∑ k in Finset.Icc j S.fNbins, S.fArray k) /
      ((∑ k in Finset.Icc j S.fNbins, S.fArray k) + B.Integral (j : ℤ) S.GetNbinsX))
  have hprod : ∀ j : ℕ, (j : ℤ) < nbinjj S →
      fmul ((scan S B).tau_Efficiency j) ((scan S B).tau_Purity j) = FVal.fin (g j) ∧
        0 < g j := by
    intro j hj
    have h0 : ((0 : ℕ) : ℤ) < nbinjj S := by omega
    obtain ⟨hp, hden⟩ := scan_tau_Purity S B hS hB j hj
    rw [scan_tau_Efficiency S B hS j hj, hp, fmul_fin]
    exact ⟨rfl, mul_pos (div_pos (tail_pos S hS j hj) (tail_pos S hS 0 h0))
      (div_pos (tail_pos S hS j hj) hden)⟩
  have hlt : ∀ j : ℕ, j < (nbinjj S).toNat ↔ (j : ℤ) < nbinjj S := fun j => Int.lt_toNat
  obtain ⟨t, _, _, hmax, hEP, hind⟩ := bestLoop_inv (scan S B) g (nbinjj S).toNat
    (fun j hj => ⟨(hprod j ((hlt j).mp hj)).1, le_of_lt (hprod j ((hlt j).mp hj)).2⟩)
  refine ⟨g, fun j hj => ⟨(hprod j hj).1, hEP j ((hlt j).mpr hj), (hprod j hj).2⟩, ?_⟩
  intro hcand
  have hn : 0 < (nbinjj S).toNat := by omega
  obtain ⟨h1, h2, h3, h4⟩ := hind hn
  have ht : (bestCut S B).temp = FVal.fin t := by assumption
  refine ⟨(hlt _).mp h1, ?_, h3, ?_, ?_⟩
  · rw [ht, h2]; rfl
  · intro j hj
    have := hmax j ((hlt j).mpr hj)
    rw [h2] at this
    exact this
  · intro j hj hij
    have := h4 j hij ((hlt j).mpr hj)
    rw [h2] at this
    exact this

/-! ## The best cut -/

/-- C3: for non-negative weights and at least one candidate, the index `ind` left
by the running-maximum loop is a candidate (`0 <= ind < nbinjj`) and its product
`tau_Efficiency*tau_Purity` is at least the product of every candidate. -/
theorem C3_best_index_maximises (S B : TH1) (hS : ∀ k, 0 ≤ S.fArray k)
    (hB : ∀ k, 0 ≤ B.fArray k) (hcand : 0 < nbinjj S) :
    (0 : ℤ) ≤ ((bestCut S B).ind : ℤ) ∧ ((bestCut S B).ind : ℤ) < nbinjj S ∧
    ∀ j : ℕ, (j : ℤ) < nbinjj S → ∃ x y : ℚ,
      fmul ((scan S B).tau_Efficiency j) ((scan S B).tau_Purity j) = FVal.fin x ∧
      fmul ((scan S B).tau_Efficiency (bestCut S B).ind)
        ((scan S B).tau_Purity (bestCut S B).ind) = FVal.fin y ∧
      x ≤ y := by
  obtain ⟨g, hg, hbest⟩ := bestCut_spec S B hS hB
  obtain ⟨h1, _, _, h4, _⟩ := hbest hcand
  refine ⟨Int.natCast_nonneg _, h1, fun j hj => ?_⟩
  exact ⟨g j, g (bestCut S B).ind, (hg j hj).1, (hg _ h1).1, h4 j hj⟩

/-- C4: tie-break of the best-cut search: for non-negative weights, every candidate
`j` above the chosen index `ind` has a strictly smaller product than `ind`, so
among candidates of maximal product the last one is kept. -/
theorem C4_later_candidates_strictly_smaller (S B : TH1) (hS : ∀ k, 0 ≤ S.fArray k)
    (hB : ∀ k, 0 ≤ B.fArray k) (j : ℕ) (hj : (j : ℤ) < nbinjj S)
    (hlater : (bestCut S B).ind < j) :
    ∃ x y : ℚ,
      fmul ((scan S B).tau_Efficiency j) ((scan S B).tau_Purity j) = FVal.fin x ∧
      fmul ((scan S B).tau_Efficiency (bestCut S B).ind)
        ((scan S B).tau_Purity (bestCut S B).ind) = FVal.fin y ∧
      x < y := by
  obtain ⟨g, hg, hbest⟩ := bestCut_spec S B hS hB
  obtain ⟨h1, _, _, _, h5⟩ := hbest (by omega)
  exact ⟨g j, g (bestCut S B).ind, (hg j hj).1, (hg _ h1).1, h5 j hj hlater⟩

/-- C5: for non-negative signal weights and at least one candidate, the efficiency
of the first candidate is exactly one. -/
theorem C5_first_efficiency_is_one (S B : TH1) (hS : ∀ k, 0 ≤ S.fArray k)
    (hcand : 0 < nbinjj S) :
    (scan S B).tau_Efficiency 0 = FVal.fin 1 := by
  have h0 : ((0 : ℕ) : ℤ) < nbinjj S := by omega
  rw [scan_tau_Efficiency S B hS 0 h0, div_self (ne_of_gt (tail_pos S hS 0 h0))]

/-- C6: for non-negative signal weights, efficiency is non-increasing in the
candidate index: for candidates `i < j`, `tau_Efficiency[j] <= tau_Efficiency[i]`,
both being finite numbers. -/
theorem C6_efficiency_nonincreasing (S B : TH1) (hS : ∀ k, 0 ≤ S.fArray k) (i j : ℕ)
    (hij : i < j) (hj : (j : ℤ) < nbinjj S) :
    ∃ x y : ℚ, (scan S B).tau_Efficiency i = FVal.fin x ∧
      (scan S B).tau_Efficiency j = FVal.fin y ∧ y ≤ x := by
  have hi : (i : ℤ) < nbinjj S := by omega
  have h0 : ((0 : ℕ) : ℤ) < nbinjj S := by omega
  refine ⟨_, _, scan_tau_Efficiency S B hS i hi, scan_tau_Efficiency S B hS j hj, ?_⟩
  exact div_le_div_of_nonneg_right (tail_antitone S hS i j S.fNbins (le_of_lt hij))
    (le_of_lt (tail_pos S hS 0 h0))

/-- C7: for non-negative signal weights and every candidate `i`, the efficiency is
a finite number of the unit interval. -/
theorem C7_efficiency_in_unit_interval (S B : TH1) (hS : ∀ k, 0 ≤ S.fArray k) (i : ℕ)
    (hi : (i : ℤ) < nbinjj S) :
    ∃ x : ℚ, (scan S B).tau_Efficiency i = FVal.fin x ∧ 0 ≤ x ∧ x ≤ 1 := by
  have h0 : ((0 : ℕ) : ℤ) < nbinjj S := by omega
  have hpos := tail_pos S hS 0 h0
  refine ⟨_, scan_tau_Efficiency S B hS i hi, ?_, ?_⟩
  · exact div_nonneg (le_of_lt (tail_pos S hS i hi)) (le_of_lt hpos)
  · rw [div_le_one hpos]
    exact tail_antitone S hS 0 i S.fNbins (Nat.zero_le i)

/-- Purity of a candidate as a finite number of the unit interval. -/
theorem scan_tau_Purity_bounds (S B : TH1) (hS : ∀ k, 0 ≤ S.fArray k)
    (hB : ∀ k, 0 ≤ B.fArray k) (i : ℕ) (hi : (i : ℤ) < nbinjj S) :
    ∃ x : ℚ, (scan S B).tau_Purity i = FVal.fin x ∧ 0 ≤ x ∧ x ≤ 1 := by
  obtain ⟨hp, hden⟩ := scan_tau_Purity S B hS hB i hi
  have hs := le_of_lt (tail_pos S hS i hi)
  have hb := Integral_nonneg B hB (i : ℤ) S.GetNbinsX
  refine ⟨_, hp, div_nonneg hs (le_of_lt hden), ?_⟩
  rw [div_le_one hden]
  linarith

/-- C8: for non-negative weights and every candidate `i`, the divisor
`sigTail[i] + bkgTail[i]` is positive and the purity is a finite number of the unit
interval. -/
theorem C8_purity_in_unit_interval (S B : TH1) (hS : ∀ k, 0 ≤ S.fArray k)
    (hB : ∀ k, 0 ≤ B.fArray k) (i : ℕ) (hi : (i : ℤ) < nbinjj S) :
    (scan S B).tau_integral i + (scan S B).charm_integral i ≠ 0 ∧
    ∃ x : ℚ, (scan S B).tau_Purity i = FVal.fin x ∧ 0 ≤ x ∧ x ≤ 1 := by
  obtain ⟨hp, hden⟩ := scan_tau_Purity S B hS hB i hi
  have hs := le_of_lt (tail_pos S hS i hi)
  have hb := Integral_nonneg B hB (i : ℤ) S.GetNbinsX
  refine ⟨?_, _, hp, div_nonneg hs (le_of_lt hden), ?_⟩
  · rw [scan_tau_integral S B i hi, scan, scanLoop_charm_integral S B _ _ i (candidate_lt S i hi).1]
    exact ne_of_gt hden
  · rw [div_le_one hden]
    linarith

/-! ## Candidates and thresholds -/

theorem scanLoop_untouched (S B : TH1) (bmax : ℤ) (n i : ℕ) (hi : n ≤ i) :
    (scanLoop S B bmax n).cut i = scanInit.cut i ∧
    (scanLoop S B bmax n).tau_integral i = scanInit.tau_integral i ∧
    (scanLoop S B bmax n).charm_integral i = scanInit.charm_integral i ∧
    (scanLoop S B bmax n).tau_Efficiency i = scanInit.tau_Efficiency i ∧
    (scanLoop S B bmax n).tau_Purity i = scanInit.tau_Purity i := by
  induction n with
  | zero => exact ⟨rfl, rfl, rfl, rfl, rfl⟩
  | succ n ih =>
    have hne : i ≠ n := by omega
    obtain ⟨h1, h2, h3, h4, h5⟩ := ih (by omega)
    simp only [scanLoop, scanBody, Function.update_apply, if_neg hne]
    exact ⟨h1, h2, h3, h4, h5⟩

theorem bestLoop_EP (a : ScanArrays) (n i : ℕ) :
    (bestLoop a n).EP i =
      if i < n then some (fmul (a.tau_Efficiency i) (a.tau_Purity i)) else none := by
  induction n with
  | zero => simp [bestLoop, bestInit]
  | succ n ih =>
    have hE : (bestLoop a (n + 1)).EP =
        Function.update (bestLoop a n).EP n (some (fmul (a.tau_Efficiency n) (a.tau_Purity n))) := by
      simp only [bestLoop, bestBody]
      split <;> rfl
    rw [hE, Function.update_apply, ih]
    by_cases h : i = n
    · simp [h]
    · rw [if_neg h]
      by_cases h2 : i < n
      · rw [if_pos h2, if_pos (by omega)]
      · rw [if_neg h2, if_neg (by omega)]

/-- C9 (as amended): the indices evaluated by the two loops are exactly the
`i < nbinjj`, where `nbinjj = FindLastBinAbove(0)` is either `-1` (no bin of the
axis range `1 .. GetNbinsX()` has positive weight) or the highest bin of that range
with weight `> 0`; with non-negative weights every signal bin above it up to
`GetNbinsX()` has zero weight.  An index `>= nbinjj` is not evaluated: its array
entries keep their initial values and no product is stored for it. -/
theorem C9_candidates_below_last_bin_of_axis (S B : TH1) (hS : ∀ k, 0 ≤ S.fArray k) :
    ((nbinjj S = -1 ∧ ∀ k : ℕ, 1 ≤ k → k ≤ S.fNbins → S.fArray k = 0) ∨
      (∃ r : ℕ, nbinjj S = (r : ℤ) ∧ 1 ≤ r ∧ r ≤ S.fNbins ∧ 0 < S.fArray r ∧
        ∀ k : ℕ, r < k → k ≤ S.fNbins → S.fArray k = 0)) ∧
    (∀ i : ℕ, ((bestCut S B).EP i).isSome = true ↔ (i : ℤ) < nbinjj S) ∧
    (∀ i : ℕ, (i : ℤ) < nbinjj S →
      (scan S B).cut i = S.GetBinLowEdge (i : ℤ) ∧
      (scan S B).tau_integral i = S.Integral (i : ℤ) S.GetNbinsX ∧
      (scan S B).charm_integral i = B.Integral (i : ℤ) S.GetNbinsX) ∧
    (∀ i : ℕ, nbinjj S ≤ (i : ℤ) →
      (scan S B).cut i = scanInit.cut i ∧
      (scan S B).tau_integral i = scanInit.tau_integral i ∧
      (scan S B).charm_integral i = scanInit.charm_integral i ∧
      (scan S B).tau_Efficiency i = scanInit.tau_Efficiency i ∧
      (scan S B).tau_Purity i = scanInit.tau_Purity i) := by
  refine ⟨?_, ?_, ?_, ?_⟩
  · rcases findLastFrom_spec S.fArray 0 S.fNbins with h | ⟨r, hr, h1, h2, h3⟩
    · left
      refine ⟨h, fun k hk1 hk2 => le_antisymm ?_ (hS k)⟩
      exact findLastFrom_above S.fArray 0 S.fNbins k (by rw [h]; omega) hk1 hk2
    · right
      refine ⟨r, hr, h1, h2, h3, fun k hk1 hk2 => le_antisymm ?_ (hS k)⟩
      exact findLastFrom_above S.fArray 0 S.fNbins k (by rw [hr]; exact_mod_cast hk1)
        (by omega) hk2
  · intro i
    rw [bestCut, bestLoop_EP]
    by_cases h : i < (nbinjj S).toNat
    · simp only [if_pos h, Option.isSome_some, true_iff]
      exact Int.lt_toNat.mp h
    · simp only [if_neg h, Option.isSome_none, Bool.false_eq_true, false_iff]
      exact fun h2 => h (Int.lt_toNat.mpr h2)
  · intro i hi
    have h1 := (candidate_lt S i hi).1
    exact ⟨scanLoop_cut S B _ _ i h1, scanLoop_tau_integral S B _ _ i h1,
      scanLoop_charm_integral S B _ _ i h1⟩
  · intro i hi
    exact scanLoop_untouched S B _ _ i (by omega)

/-- C10: for every candidate `i` the recorded threshold `cut[i]` is the lower edge
of bin `i` of the signal histogram, and when the bin edges are strictly
increasing the recorded thresholds are strictly increasing in `i`. -/
theorem C10_threshold_is_low_edge (S B : TH1) (i : ℕ) (hi : (i : ℤ) < nbinjj S) :
    (scan S B).cut i = S.GetBinLowEdge (i : ℤ) ∧
    ((∀ b : ℤ, S.GetBinLowEdge b < S.GetBinLowEdge (b + 1)) →
      ∀ j : ℕ, i < j → (j : ℤ) < nbinjj S → (scan S B).cut i < (scan S B).cut j) := by
  have hcut : ∀ m : ℕ, (m : ℤ) < nbinjj S → (scan S B).cut m = S.GetBinLowEdge (m : ℤ) :=
    fun m hm => scanLoop_cut S B _ _ m (candidate_lt S m hm).1
  refine ⟨hcut i hi, fun hedge j hij hj => ?_⟩
  rw [hcut i hi, hcut j hj]
  have hw : 0 < (S.fXmax - S.fXmin) / (S.fNbins : ℚ) := by
    have := hedge 0
    simp only [TH1.GetBinLowEdge] at this
    push_cast at this
    linarith
  have hlt : (i : ℚ) < (j : ℚ) := by exact_mod_cast hij
  simp only [TH1.GetBinLowEdge, Int.cast_natCast]
  nlinarith

/-! ## Instances on the sample histograms -/

theorem C1_witness :
    ((1 : ℕ) : ℤ) < nbinjj sampleSignal ∧
    (scan sampleSignal sampleBackground).tau_Efficiency 1 = FVal.fin (9 / 10) :=
  ⟨by decide,
    (C1_efficiency_is_tail_ratio sampleSignal sampleBackground sampleSignal_nonneg 1
      (by decide)).2.2.2.trans
      (by norm_num [sampleSignal, mkTH1, Finset.sum_Icc_succ_top])⟩

theorem C2_witness :
    sampleBackground.fNbins = sampleSignal.fNbins ∧ ((2 : ℕ) : ℤ) < nbinjj sampleSignal ∧
    (scan sampleSignal sampleBackground).tau_Purity 2 = FVal.fin (26 / 33) :=
  ⟨rfl, by decide,
    (C2_purity_is_tail_ratio sampleSignal sampleBackground sampleSignal_nonneg
      sampleBackground_nonneg rfl 2 (by decide)).2.trans
      (by norm_num [sampleSignal, sampleBackground, mkTH1, Finset.sum_Icc_succ_top])⟩

theorem C3_witness :
    0 < nbinjj sampleSignal ∧
    ((bestCut sampleSignal sampleBackground).ind : ℤ) < nbinjj sampleSignal :=
  ⟨by decide,
    (C3_best_index_maximises sampleSignal sampleBackground sampleSignal_nonneg
      sampleBackground_nonneg (by decide)).2.1⟩

theorem C4_witness :
    ((2 : ℕ) : ℤ) < nbinjj sampleSignal ∧ (bestCut sampleSignal sampleBackground).ind < 2 ∧
    ∃ x y : ℚ,
      fmul ((scan sampleSignal sampleBackground).tau_Efficiency 2)
        ((scan sampleSignal sampleBackground).tau_Purity 2) = FVal.fin x ∧
      fmul ((scan sampleSignal sampleBackground).tau_Efficiency
          (bestCut sampleSignal sampleBackground).ind)
        ((scan sampleSignal sampleBackground).tau_Purity
          (bestCut sampleSignal sampleBackground).ind) = FVal.fin y ∧
      x < y :=
  ⟨by decide, by with_unfolding_all decide,
    C4_later_candidates_strictly_smaller sampleSignal sampleBackground sampleSignal_nonneg
      sampleBackground_nonneg 2 (by decide) (by with_unfolding_all decide)⟩

theorem C5_witness :
    0 < nbinjj sampleSignal ∧
    (scan sampleSignal sampleBackground).tau_Efficiency 0 = FVal.fin 1 :=
  ⟨by decide,
    C5_first_efficiency_is_one sampleSignal sampleBackground sampleSignal_nonneg (by decide)⟩

theorem C6_witness :
    ((2 : ℕ) : ℤ) < nbinjj sampleSignal ∧
    ∃ x y : ℚ, (scan sampleSignal sampleBackground).tau_Efficiency 1 = FVal.fin x ∧
      (scan sampleSignal sampleBackground).tau_Efficiency 2 = FVal.fin y ∧ y ≤ x :=
  ⟨by decide,
    C6_efficiency_nonincreasing sampleSignal sampleBackground sampleSignal_nonneg 1 2
      (by decide) (by decide)⟩

theorem C7_witness :
    ((2 : ℕ) : ℤ) < nbinjj sampleSignal ∧
    ∃ x : ℚ, (scan sampleSignal sampleBackground).tau_Efficiency 2 = FVal.fin x ∧
      0 ≤ x ∧ x ≤ 1 :=
  ⟨by decide,
    C7_efficiency_in_unit_interval sampleSignal sampleBackground sampleSignal_nonneg 2
      (by decide)⟩

theorem C8_witness :
    ((1 : ℕ) : ℤ) < nbinjj sampleSignal ∧
    ∃ x : ℚ, (scan sampleSignal sampleBackground).tau_Purity 1 = FVal.fin x ∧
      0 ≤ x ∧ x ≤ 1 :=
  ⟨by decide,
    (C8_purity_in_unit_interval sampleSignal sampleBackground sampleSignal_nonneg
      sampleBackground_nonneg 1 (by decide)).2⟩

/-- C9, as first stated, fails on a histogram whose overflow bin holds weight: the
search stops at bin `1`, the last bin of the axis, although bin `2` (the overflow
bin of this one-bin histogram) lies above it and has weight `1`. -/
theorem C9_counterexample_overflow_bin :
    nbinjj overflowSignal = 1 ∧ overflowSignal.fNbins = 1 ∧ overflowSignal.fArray 2 = 1 ∧
    ¬ (∀ k : ℕ, nbinjj overflowSignal < (k : ℤ) → k ≤ overflowSignal.fNbins + 1 →
        overflowSignal.fArray k = 0) := by
  refine ⟨by decide, rfl, rfl, fun h => ?_⟩
  have h2 : overflowSignal.fArray 2 = 0 := h 2 (by decide) (by decide)
  have h1 : overflowSignal.fArray 2 = 1 := rfl
  rw [h1] at h2
  exact one_ne_zero h2

theorem C9_witness :
    nbinjj sampleSignal = 3 ∧
    (((bestCut sampleSignal sampleBackground).EP 2).isSome = true ↔
      ((2 : ℕ) : ℤ) < nbinjj sampleSignal) ∧
    (((bestCut sampleSignal sampleBackground).EP 3).isSome = true ↔
      ((3 : ℕ) : ℤ) < nbinjj sampleSignal) :=
  ⟨by decide,
    (C9_candidates_below_last_bin_of_axis sampleSignal sampleBackground
      sampleSignal_nonneg).2.1 2,
    (C9_candidates_below_last_bin_of_axis sampleSignal sampleBackground
      sampleSignal_nonneg).2.1 3⟩

theorem C10_witness :
    ((0 : ℕ) : ℤ) < nbinjj sampleSignal ∧ ((2 : ℕ) : ℤ) < nbinjj sampleSignal ∧
    (scan sampleSignal sampleBackground).cut 0 = sampleSignal.GetBinLowEdge 0 ∧
    (scan sampleSignal sampleBackground).cut 0 < (scan sampleSignal sampleBackground).cut 2 :=
  ⟨by decide, by decide,
    (C10_threshold_is_low_edge sampleSignal sampleBackground 0 (by decide)).1,
    (C10_threshold_is_low_edge sampleSignal sampleBackground 0 (by decide)).2
      (fun b => by
        simp only [TH1.GetBinLowEdge, sampleSignal, mkTH1]
        push_cast
        linarith)
      2 (by decide) (by decide)⟩

/-! ## The reported cut -/

theorem findLastFrom_none (c : ℕ → ℚ) (t : ℚ) (b : ℕ)
    (h : ∀ k, 1 ≤ k → k ≤ b → c k ≤ t) : findLastFrom c t b = -1 := by
  induction b with
  | zero => rfl
  | succ b ih =>
    unfold findLastFrom
    rw [if_neg (not_lt.mpr (h (b + 1) (by omega) (le_refl _)))]
    exact ih (fun k h1 h2 => h k h1 (by omega))

/-- C11 (as amended): for non-negative weights and at least one candidate, the
suggested threshold is `cut[ind]`, the tracked maximum `temp` is the stored product
`EP[ind] = tau_Efficiency[ind]*tau_Purity[ind]`, and the printed line shows
`cut[ind]`, the efficiency `tau_Efficiency[ind]` times 100 and the background
rejection `100-(charm_integral[ind]/charm_integral[0])*100`; the purity of the best
cut enters through the product only. -/
theorem C11_best_cut_consistent (S B : TH1) (hS : ∀ k, 0 ≤ S.fArray k)
    (hB : ∀ k, 0 ≤ B.fArray k) (hcand : 0 < nbinjj S) :
    (bestCut S B).suggestedcut = (scan S B).cut (bestCut S B).ind ∧
    (bestCut S B).EP (bestCut S B).ind = some (bestCut S B).temp ∧
    (bestCut S B).temp =
      fmul ((scan S B).tau_Efficiency (bestCut S B).ind)
        ((scan S B).tau_Purity (bestCut S B).ind) ∧
    (taglioSuggerito S B).suggestedcut = (scan S B).cut (bestCut S B).ind ∧
    (taglioSuggerito S B).sig =
      fmul ((scan S B).tau_Efficiency (bestCut S B).ind) (FVal.fin 100) ∧
    (taglioSuggerito S B).bkg =
      fsub (FVal.fin 100)
        (fmul (fdiv ((scan S B).charm_integral (bestCut S B).ind)
          ((scan S B).charm_integral 0)) (FVal.fin 100)) := by
  obtain ⟨g, hg, hbest⟩ := bestCut_spec S B hS hB
  obtain ⟨h1, h2, h3, _, _⟩ := hbest hcand
  obtain ⟨hp, hE, _⟩ := hg _ h1
  refine ⟨h3, ?_, ?_, h3, rfl, rfl⟩
  · rw [hE, h2]
  · rw [h2, hp]

/-- C11, as first stated, fails on the sample histograms: the best index is `1`,
its purity is `3/4`, and the printed figures are the cut `0`, the efficiency `90`
(percent) and the background rejection `40` (percent), none of which is the
purity. -/
theorem C11_counterexample_purity_not_printed :
    (bestCut sampleSignal sampleBackground).ind = 1 ∧
    (scan sampleSignal sampleBackground).tau_Purity 1 = FVal.fin (3 / 4) ∧
    taglioSuggerito sampleSignal sampleBackground =
      { suggestedcut := 0, sig := FVal.fin 90, bkg := FVal.fin 40 } ∧
    (taglioSuggerito sampleSignal sampleBackground).bkg ≠
      (scan sampleSignal sampleBackground).tau_Purity
        (bestCut sampleSignal sampleBackground).ind ∧
    (taglioSuggerito sampleSignal sampleBackground).bkg ≠
      fmul ((scan sampleSignal sampleBackground).tau_Purity
        (bestCut sampleSignal sampleBackground).ind) (FVal.fin 100) := by
  refine ⟨?_, ?_, ?_, ?_, ?_⟩ <;> with_unfolding_all decide

theorem C11_witness :
    0 < nbinjj sampleSignal ∧
    (bestCut sampleSignal sampleBackground).suggestedcut =
      (scan sampleSignal sampleBackground).cut (bestCut sampleSignal sampleBackground).ind ∧
    (bestCut sampleSignal sampleBackground).EP (bestCut sampleSignal sampleBackground).ind =
      some (bestCut sampleSignal sampleBackground).temp :=
  ⟨by decide,
    (C11_best_cut_consistent sampleSignal sampleBackground sampleSignal_nonneg
      sampleBackground_nonneg (by decide)).1,
    (C11_best_cut_consistent sampleSignal sampleBackground sampleSignal_nonneg
      sampleBackground_nonneg (by decide)).2.1⟩

/-- C12 (as amended): when no bin of the axis range of the signal histogram has
weight `> 0`, `FindLastBinAbove` returns `-1`, neither loop executes an iteration
(the arrays and the best-cut variables keep their initial values, no product is
stored), and the line is printed all the same, from the initial values: cut `0`,
efficiency `-9999*100` and background rejection `0`. -/
theorem C12_no_candidate (S B : TH1)
    (hnone : ∀ k, 1 ≤ k → k ≤ S.fNbins → S.fArray k ≤ 0) :
    nbinjj S = -1 ∧ scan S B = scanInit ∧ bestCut S B = bestInit ∧
    (∀ i, (bestCut S B).EP i = none) ∧
    reportLines S B =
      [{ suggestedcut := 0, sig := FVal.fin (-999900), bkg := FVal.fin 0 }] := by
  have hn : nbinjj S = -1 := findLastFrom_none S.fArray 0 S.fNbins hnone
  have hs : scan S B = scanInit := by
    unfold scan
    rw [hn]
    rfl
  have hb : bestCut S B = bestInit := by
    unfold bestCut
    rw [hn]
    rfl
  refine ⟨hn, hs, hb, fun i => by rw [hb]; rfl, ?_⟩
  unfold reportLines taglioSuggerito
  rw [hs, hb]
  norm_num [bestInit, scanInit, fmul, fsub, fdiv]

/-- C12, as first stated, fails on a signal histogram without weight: a line is
printed, with the cut `0`. -/
theorem C12_counterexample_line_printed :
    nbinjj emptySignal = -1 ∧
    reportLines emptySignal sampleBackground ≠ [] ∧
    reportLines emptySignal sampleBackground =
      [{ suggestedcut := 0, sig := FVal.fin (-999900), bkg := FVal.fin 0 }] := by
  have hs : scan emptySignal sampleBackground = scanInit := rfl
  have hb : bestCut emptySignal sampleBackground = bestInit := rfl
  refine ⟨by decide, by simp [reportLines], ?_⟩
  unfold reportLines taglioSuggerito
  rw [hs, hb]
  norm_num [bestInit, scanInit, fmul, fsub, fdiv]

theorem C12_witness :
    nbinjj emptySignal = -1 ∧ bestCut emptySignal sampleBackground = bestInit :=
  ⟨(C12_no_candidate emptySignal sampleBackground (fun k _ _ => by
      simp only [emptySignal, mkTH1, List.getD_eq_getElem?_getD]
      rcases k with _ | _ | _ | _ | k <;> simp)).1,
    (C12_no_candidate emptySignal sampleBackground (fun k _ _ => by
      simp only [emptySignal, mkTH1, List.getD_eq_getElem?_getD]
      rcases k with _ | _ | _ | _ | k <;> simp)).2.2.1⟩

/-! ## Scenarios -/

/-- C13 (as amended): for signal bins `[(0,10),(1,20),(2,0)]` and background bins
`[(0,5),(1,5),(2,0)]` (lower edge, weight; bins numbered `0, 1, 2`) the last
non-empty bin is at index `1`, the only candidate is `i=0` with efficiency `1`,
purity `30/40 = 3/4` and product `3/4`, index `1` is not evaluated (the loop stops
below the last non-empty bin), and the best cut is `i=0`. -/
theorem C13_scenario :
    scenarioSignal.GetBinLowEdge 0 = 0 ∧ scenarioSignal.GetBinLowEdge 1 = 1 ∧
    scenarioSignal.GetBinLowEdge 2 = 2 ∧
    nbinjj scenarioSignal = 1 ∧
    (scan scenarioSignal scenarioBackground).tau_Efficiency 0 = FVal.fin 1 ∧
    (scan scenarioSignal scenarioBackground).tau_Purity 0 = FVal.fin (3 / 4) ∧
    (bestCut scenarioSignal scenarioBackground).EP 0 = some (FVal.fin (3 / 4)) ∧
    (bestCut scenarioSignal scenarioBackground).EP 1 = none ∧
    (bestCut scenarioSignal scenarioBackground).ind = 0 ∧
    (bestCut scenarioSignal scenarioBackground).temp = FVal.fin (3 / 4) := by
  refine ⟨?_, ?_, ?_, ?_, ?_, ?_, ?_, ?_, ?_, ?_⟩ <;> with_unfolding_all decide

/-- C13, as first stated, fails: index `1` is not a candidate, no product is stored
for it, and its efficiency and purity entries are the initial `0`, not `2/3` and
`4/5`. -/
theorem C13_counterexample_index_one_not_scanned :
    ¬ (((1 : ℕ) : ℤ) < nbinjj scenarioSignal) ∧
    (bestCut scenarioSignal scenarioBackground).EP 1 = none ∧
    (scan scenarioSignal scenarioBackground).tau_Efficiency 1 = FVal.fin 0 ∧
    (scan scenarioSignal scenarioBackground).tau_Efficiency 1 ≠ FVal.fin (2 / 3) ∧
    (scan scenarioSignal scenarioBackground).tau_Purity 1 = FVal.fin 0 ∧
    (scan scenarioSignal scenarioBackground).tau_Purity 1 ≠ FVal.fin (4 / 5) := by
  refine ⟨?_, ?_, ?_, ?_, ?_, ?_⟩ <;> with_unfolding_all decide

/-- The same scenario with the three weights booked as the bins `1, 2, 3` of the axis
`[0, 3)`: the last non-empty bin is bin `2`, the candidates are the underflow bin
and bin `1` (thresholds `-1` and `0`), both with efficiency `1` and purity `3/4`,
and the tie is won by the later one; the bin with lower edge `1` is not a
candidate in this reading either. -/
theorem scenario_booked_on_axis :
    nbinjj scenarioSignalAxis = 2 ∧
    (scan scenarioSignalAxis scenarioBackgroundAxis).cut 0 = -1 ∧
    (scan scenarioSignalAxis scenarioBackgroundAxis).cut 1 = 0 ∧
    (scan scenarioSignalAxis scenarioBackgroundAxis).tau_Efficiency 0 = FVal.fin 1 ∧
    (scan scenarioSignalAxis scenarioBackgroundAxis).tau_Purity 0 = FVal.fin (3 / 4) ∧
    (scan scenarioSignalAxis scenarioBackgroundAxis).tau_Efficiency 1 = FVal.fin 1 ∧
    (scan scenarioSignalAxis scenarioBackgroundAxis).tau_Purity 1 = FVal.fin (3 / 4) ∧
    (bestCut scenarioSignalAxis scenarioBackgroundAxis).EP 2 = none ∧
    (bestCut scenarioSignalAxis scenarioBackgroundAxis).ind = 1 := by
  refine ⟨?_, ?_, ?_, ?_, ?_, ?_, ?_, ?_, ?_⟩ <;> with_unfolding_all decide

theorem findLastFrom_eq (c : ℕ → ℚ) (t : ℚ) (b r : ℕ) (h1 : 1 ≤ r) (hr : r ≤ b)
    (hpos : t < c r) (hz : ∀ k, r < k → k ≤ b → c k ≤ t) :
    findLastFrom c t b = (r : ℤ) := by
  rcases findLastFrom_spec c t b with h | ⟨q, hq, hq1, hq2, hq3⟩
  · exfalso
    have := findLastFrom_above c t b r (by rw [h]; omega) h1 hr
    exact absurd hpos (not_lt.mpr this)
  · rw [hq]
    rcases lt_trichotomy q r with hlt | heq | hgt
    · exfalso
      have := findLastFrom_above c t b r (by rw [hq]; exact_mod_cast hlt) h1 hr
      exact absurd hpos (not_lt.mpr this)
    · rw [heq]
    · exact absurd hq3 (not_lt.mpr (hz q hgt hq2))

/-- C14 (as amended): when the only bin of the signal histogram with non-zero
weight is bin `r` of the axis range, with positive weight, the scan yields `r`
candidates, the indices `0 .. r-1`, and each of them has efficiency `1`; there is
exactly one candidate when `r = 1`. -/
theorem C14_single_bin (S B : TH1) (r : ℕ) (h1 : 1 ≤ r) (hr : r ≤ S.fNbins)
    (hpos : 0 < S.fArray r) (hz : ∀ k, k ≠ r → S.fArray k = 0) :
    nbinjj S = (r : ℤ) ∧
    (∀ i : ℕ, ((bestCut S B).EP i).isSome = true ↔ i < r) ∧
    (∀ i : ℕ, i < r → (scan S B).tau_Efficiency i = FVal.fin 1) ∧
    (r = 1 → ∀ i : ℕ, ((bestCut S B).EP i).isSome = true ↔ i = 0) := by
  have hS : ∀ k, 0 ≤ S.fArray k := by
    intro k
    by_cases hk : k = r
    · rw [hk]; exact le_of_lt hpos
    · rw [hz k hk]
  have hn : nbinjj S = (r : ℤ) :=
    findLastFrom_eq S.fArray 0 S.fNbins r h1 hr hpos
      (fun k hk _ => le_of_eq (hz k (by omega)))
  have hEP : ∀ i : ℕ, ((bestCut S B).EP i).isSome = true ↔ i < r := by
    intro i
    rw [bestCut, bestLoop_EP, hn, Int.toNat_ofNat]
    by_cases h : i < r
    · simp [h]
    · simp [h]
  refine ⟨hn, hEP, ?_, ?_⟩
  · intro i hi
    have hc : (i : ℤ) < nbinjj S := by rw [hn]; exact_mod_cast hi
    have h0 : ((0 : ℕ) : ℤ) < nbinjj S := by omega
    rw [scan_tau_Efficiency S B hS i hc]
    have heq : ∑ k in Finset.Icc i S.fNbins, S.fArray k =
        ∑ k in Finset.Icc 0 S.fNbins, S.fArray k := by
      apply Finset.sum_subset (Finset.Icc_subset_Icc_left (Nat.zero_le i))
      intro x _ hx
      apply hz
      intro hxr
      apply hx
      rw [Finset.mem_Icc]
      omega
    rw [heq, div_self (ne_of_gt (tail_pos S hS 0 h0))]
  · intro hr1 i
    rw [hEP i, hr1]
    omega

/-- C14, as first stated, fails on a histogram whose only non-empty bin is bin `2`:
two candidates are evaluated, both with efficiency `1`. -/
theorem C14_counterexample_two_candidates :
    nbinjj singleBinSignal = 2 ∧
    ((bestCut singleBinSignal sampleBackground).EP 0).isSome = true ∧
    ((bestCut singleBinSignal sampleBackground).EP 1).isSome = true ∧
    (scan singleBinSignal sampleBackground).tau_Efficiency 0 = FVal.fin 1 ∧
    (scan singleBinSignal sampleBackground).tau_Efficiency 1 = FVal.fin 1 := by
  refine ⟨?_, ?_, ?_, ?_, ?_⟩ <;> with_unfolding_all decide

theorem C14_witness :
    nbinjj singleBinSignal = 2 ∧
    (scan singleBinSignal sampleBackground).tau_Efficiency 1 = FVal.fin 1 :=
  ⟨(C14_single_bin singleBinSignal sampleBackground 2 (by decide) (by decide) (by decide)
      (fun k hk => by
        simp only [singleBinSignal, mkTH1, List.getD_eq_getElem?_getD]
        rcases k with _ | _ | _ | _ | _ | k <;> simp at hk ⊢)).1,
    (C14_single_bin singleBinSignal sampleBackground 2 (by decide) (by decide) (by decide)
      (fun k hk => by
        simp only [singleBinSignal, mkTH1, List.getD_eq_getElem?_getD]
        rcases k with _ | _ | _ | _ | _ | k <;> simp at hk ⊢)).2.2.1 1 (by decide)⟩

/-! ## Integrals with a clamped upper bound -/

theorem sumBins_eq_sum_Icc (c : ℕ → ℚ) (lo hi : ℕ) :
    sumBins c lo (hi + 1 - lo) = ∑ k in Finset.Icc lo hi, c k := by
  rw [sumBins_eq_sum, ← Nat.Ico_succ_right, Finset.sum_Ico_eq_sum_range]

/-- `Integral(i, b2)` with `i <= b2` sums the bins from `i` up to `b2`, or up to the
overflow bin when `b2` lies beyond it. -/
theorem Integral_eq_sum_min (h : TH1) (i b2 : ℕ) (hi : i ≤ b2) :
    h.Integral (i : ℤ) (b2 : ℤ) = ∑ k in Finset.Icc i (min b2 (h.fNbins + 1)), h.fArray k := by
  have h1 : ¬ ((i : ℤ) < 0) := by omega
  by_cases hc : h.fNbins + 1 < b2
  · have h2 : ((b2 : ℤ) > (h.fNbins : ℤ) + 1 ∨ (b2 : ℤ) < (i : ℤ)) := by omega
    have h3 : ((h.fNbins : ℤ) + 1 + 1 - (i : ℤ)).toNat = h.fNbins + 1 + 1 - i := by omega
    simp only [TH1.Integral, h1, h2, if_false, if_true, Int.toNat_ofNat, h3]
    rw [sumBins_eq_sum_Icc, min_eq_right (le_of_lt hc)]
  · have h2 : ¬ ((b2 : ℤ) > (h.fNbins : ℤ) + 1 ∨ (b2 : ℤ) < (i : ℤ)) := by omega
    have h3 : ((b2 : ℤ) + 1 - (i : ℤ)).toNat = b2 + 1 - i := by omega
    simp only [TH1.Integral, h1, h2, if_false, Int.toNat_ofNat, h3]
    rw [sumBins_eq_sum_Icc, min_eq_left (by omega)]

/-! ## Selection of the methods -/

theorem keysOf_setFlag (u : List (String × ℤ)) (k : String) (v : ℤ) :
    keysOf (setFlag u k v) = keysOf u := by
  unfold keysOf setFlag
  rw [List.map_map]
  apply List.map_congr_left
  intro p _
  by_cases h : p.1 = k <;> simp [h]

theorem keysOf_resetAll (u : List (String × ℤ)) : keysOf (resetAll u) = keysOf u := by
  unfold keysOf resetAll
  rw [List.map_map]
  rfl

/-- A name outside the keys ends the loop with the value `1`. -/
theorem selectLoop_unknown (l : List String) (u : List (String × ℤ)) (m : String)
    (hm : m ∈ l) (hunknown : m ∉ keysOf u) : selectLoop l u = Except.error 1 := by
  induction l generalizing u with
  | nil => simp at hm
  | cons a rest ih =>
    unfold selectLoop
    by_cases ha : a ∈ keysOf u
    · rw [if_pos ha]
      rcases List.mem_cons.mp hm with h | h
      · rw [h] at hunknown; exact absurd ha hunknown
      · exact ih (setFlag u a 1) h (by rw [keysOf_setFlag]; exact hunknown)
    · rw [if_neg ha]

/-- When every name is a key the loop ends normally, having switched on exactly the
names it was given. -/
theorem selectLoop_known (l : List String) (u : List (String × ℤ))
    (hall : ∀ m, m ∈ l → m ∈ keysOf u) :
    selectLoop l u = Except.ok (u.map (fun p => if p.1 ∈ l then (p.1, 1) else p)) := by
  induction l generalizing u with
  | nil => simp [selectLoop]
  | cons a rest ih =>
    unfold selectLoop
    rw [if_pos (hall a (List.mem_cons_self a rest))]
    rw [ih (setFlag u a 1) (fun m hm => by
      rw [keysOf_setFlag]; exact hall m (List.mem_cons_of_mem a hm))]
    unfold setFlag
    rw [List.map_map]
    congr 1
    apply List.map_congr_left
    intro p _
    by_cases h1 : p.1 = a
    · simp [h1]
    · by_cases h2 : p.1 ∈ rest
      · simp [h1, h2]
      · simp [h1, h2]

/-- C16: if a name of the method list is not a key of `Use`, `TMVAClassification`
returns `1` and makes no call on the factory: no method is booked, trained, tested
or evaluated. -/
theorem C16_unknown_method_returns_one (myMethodList m : String)
    (hm : m ∈ SplitString myMethodList (Char.ofNat 44))
    (hunknown : m ∉ keysOf UseDefault) :
    TMVAClassification myMethodList = (1, []) := by
  have hne : myMethodList ≠ "" := by
    intro h
    have hs : SplitString "" (Char.ofNat 44) = [] := rfl
    rw [h, hs] at hm
    exact absurd hm (List.not_mem_nil m)
  have hsel : selectMethods myMethodList = Except.error 1 := by
    unfold selectMethods
    rw [if_pos hne]
    exact selectLoop_unknown _ _ m hm (by rw [keysOf_resetAll]; exact hunknown)
  unfold TMVAClassification
  rw [hsel]

theorem C16_witness :
    "Fisher" ∈ SplitString "BDT,Fisher" (Char.ofNat 44) ∧ "Fisher" ∉ keysOf UseDefault ∧
    TMVAClassification "BDT,Fisher" = (1, []) :=
  ⟨by decide, by decide,
    C16_unknown_method_returns_one "BDT,Fisher" "Fisher" (by decide) (by decide)⟩

/-- C17: with an empty method list the defaults are kept unchanged, `BDT` is the
only method whose flag is non-zero, and `BDT` is the only method booked. -/
theorem C17_default_methods :
    selectMethods "" = Except.ok UseDefault ∧
    (∀ p ∈ UseDefault, p.2 ≠ 0 ↔ p.1 = "BDT") ∧
    (∀ k : String, flagOf UseDefault k ≠ 0 ↔ k = "BDT") ∧
    TMVAClassification "" =
      (0, [Action.book "BDT", Action.trainAll, Action.testAll, Action.evaluateAll]) := by
  refine ⟨rfl, by decide, ?_, by decide⟩
  intro k
  constructor
  · intro h
    by_contra hk
    apply h
    have hb : (k == "BDT") = false := by simpa using hk
    simp only [flagOf, UseDefault, List.lookup, hb]
    repeat' split
    all_goals rfl
  · intro h
    rw [h]
    decide

/-- C18: for a non-empty method list all of whose names are keys of `Use`, the
selection ends normally with the same keys, and the flag of a method is `1` when
its name occurs in the list and `0` when it does not. -/
theorem C18_selected_flags (myMethodList : String) (hne : myMethodList ≠ "")
    (hall : ∀ m, m ∈ SplitString myMethodList (Char.ofNat 44) → m ∈ keysOf UseDefault) :
    ∃ U : List (String × ℤ), selectMethods myMethodList = Except.ok U ∧
      keysOf U = keysOf UseDefault ∧
      ∀ p ∈ U, (p.2 = 1 ↔ p.1 ∈ SplitString myMethodList (Char.ofNat 44)) ∧
        (p.2 = 0 ↔ p.1 ∉ SplitString myMethodList (Char.ofNat 44)) := by
  have hsel := selectLoop_known (SplitString myMethodList (Char.ofNat 44))
    (resetAll UseDefault) (fun m hm => by rw [keysOf_resetAll]; exact hall m hm)
  refine ⟨_, by unfold selectMethods; rw [if_pos hne]; exact hsel, ?_, ?_⟩
  · unfold keysOf resetAll
    rw [List.map_map, List.map_map]
    apply List.map_congr_left
    intro p _
    by_cases h : p.1 ∈ SplitString myMethodList (Char.ofNat 44) <;> simp [h]
  · intro p hp
    unfold resetAll at hp
    rw [List.map_map] at hp
    obtain ⟨q, _, hq⟩ := List.mem_map.mp hp
    by_cases h : q.1 ∈ SplitString myMethodList (Char.ofNat 44)
    · simp only [Function.comp, h, if_true] at hq
      rw [← hq]
      simp [h]
    · simp only [Function.comp, h, if_false] at hq
      rw [← hq]
      simp [h]

theorem C18_witness :
    selectMethods "MLP,BDTG" =
      Except.ok
        [("BDT", 0), ("BDTG", 1), ("BDTB", 0), ("BDTD", 0), ("BDTF", 0), ("RuleFit", 0),
         ("MLP", 1), ("MLPBFGS", 0), ("MLPBNN", 0), ("CFMlpANN", 0), ("TMlpANN", 0),
         ("DNN", 0), ("DNN_GPU", 0), ("DNN_CPU", 0)] ∧
    ∃ U : List (String × ℤ), selectMethods "MLP,BDTG" = Except.ok U ∧
      keysOf U = keysOf UseDefault ∧
      ∀ p ∈ U, (p.2 = 1 ↔ p.1 ∈ SplitString "MLP,BDTG" (Char.ofNat 44)) ∧
        (p.2 = 0 ↔ p.1 ∉ SplitString "MLP,BDTG" (Char.ofNat 44)) :=
  ⟨rfl, C18_selected_flags "MLP,BDTG" (by decide) (by decide)⟩

/-! ## Purity profile -/

/-- C19: there are non-negative histograms with positive signal total on which
purity is not monotone: on `bumpSignal` and `bumpBackground` the candidates
`1 < 2 < 3` have purities `1/6`, `3/13`, `1/6` (a rise followed by a fall), while
their efficiencies `1`, `3/4`, `1/2` do not increase. -/
theorem C19_purity_not_monotone :
    ∃ S B : TH1, (∀ k, 0 ≤ S.fArray k) ∧ (∀ k, 0 ≤ B.fArray k) ∧
      0 < (scan S B).tau_integral 0 ∧
      ∃ i j k : ℕ, i < j ∧ j < k ∧ (k : ℤ) < nbinjj S ∧
        ∃ p₁ p₂ p₃ e₁ e₂ e₃ : ℚ,
          (scan S B).tau_Purity i = FVal.fin p₁ ∧ (scan S B).tau_Purity j = FVal.fin p₂ ∧
          (scan S B).tau_Purity k = FVal.fin p₃ ∧ p₁ < p₂ ∧ p₃ < p₂ ∧
          (scan S B).tau_Efficiency i = FVal.fin e₁ ∧
          (scan S B).tau_Efficiency j = FVal.fin e₂ ∧
          (scan S B).tau_Efficiency k = FVal.fin e₃ ∧ e₂ ≤ e₁ ∧ e₃ ≤ e₂ := by
  refine ⟨bumpSignal, bumpBackground, mkTH1_nonneg _ _ _ _ (by decide),
    mkTH1_nonneg _ _ _ _ (by decide), by with_unfolding_all decide,
    1, 2, 3, by decide, by decide, by decide,
    1 / 6, 3 / 13, 1 / 6, 1, 3 / 4, 1 / 2, ?_, ?_, ?_, by norm_num, by norm_num,
    ?_, ?_, ?_, by norm_num, by norm_num⟩ <;> with_unfolding_all decide

/-! ## The command line -/

theorem ne_empty_of_length_pos (s : String) (h : 0 < s.length) : s ≠ "" := by
  intro hs
  rw [hs] at h
  exact absurd h (by decide)

/-- Once `methodList` is non-empty, the remaining iterations append each kept
argument after a comma. -/
theorem mainLoop_from_nonempty (args : List String) (acc : String) (hacc : acc ≠ "") :
    List.foldl
        (fun methodList regMethod =>
          if regMethod = "-b" ∨ regMethod = "--batch" then methodList
          else (if methodList ≠ "" then methodList ++ "," else methodList) ++ regMethod)
        acc args ≠ "" ∧
    List.foldl
        (fun methodList regMethod =>
          if regMethod = "-b" ∨ regMethod = "--batch" then methodList
          else (if methodList ≠ "" then methodList ++ "," else methodList) ++ regMethod)
        acc args =
      String.intercalate.go acc ","
        (args.filter (fun a => decide (¬ (a = "-b" ∨ a = "--batch")))) := by
  induction args generalizing acc with
  | nil => exact ⟨hacc, rfl⟩
  | cons a rest ih =>
    by_cases ha : a = "-b" ∨ a = "--batch"
    · simp only [List.foldl_cons, ha, if_true, not_true_eq_false, decide_False,
        Bool.false_eq_true, not_false_eq_true, List.filter_cons_of_neg]
      exact ih acc hacc
    · have hnext : acc ++ "," ++ a ≠ "" := by
        apply ne_empty_of_length_pos
        rw [String.length_append, String.length_append]
        have : ("," : String).length = 1 := rfl
        omega
      simp only [List.foldl_cons, ha, if_false, hacc, ne_eq, not_false_eq_true, if_true,
        decide_True, List.filter_cons_of_pos]
      exact ih (acc ++ "," ++ a) hnext

/-- C20: for arguments that are non-empty strings, the list handed by `main` to
`TMVAClassification` consists of the arguments other than `-b` and `--batch`, in
their order, joined by single commas; it is empty exactly when every argument is
`-b` or `--batch`. -/
theorem C20_main_joins_methods (args : List String) (hne : ∀ a, a ∈ args → a ≠ "") :
    mainLoop args =
      String.intercalate ","
        (args.filter (fun a => decide (¬ (a = "-b" ∨ a = "--batch")))) ∧
    (mainLoop args = "" ↔ ∀ a, a ∈ args → a = "-b" ∨ a = "--batch") ∧
    main args =
      TMVAClassification
        (String.intercalate ","
          (args.filter (fun a => decide (¬ (a = "-b" ∨ a = "--batch"))))) := by
  have key : mainLoop args =
      String.intercalate ","
        (args.filter (fun a => decide (¬ (a = "-b" ∨ a = "--batch")))) ∧
      (mainLoop args = "" ↔ ∀ a, a ∈ args → a = "-b" ∨ a = "--batch") := by
    unfold mainLoop
    induction args with
    | nil => exact ⟨rfl, by simp⟩
    | cons a rest ih =>
      by_cases ha : a = "-b" ∨ a = "--batch"
      · obtain ⟨h1, h2⟩ := ih (fun x hx => hne x (List.mem_cons_of_mem a hx))
        simp only [List.foldl_cons, ha, if_true, not_true_eq_false, decide_False,
          Bool.false_eq_true, not_false_eq_true, List.filter_cons_of_neg]
        refine ⟨h1, ?_⟩
        rw [h2]
        constructor
        · intro h x hx
          rcases List.mem_cons.mp hx with hxa | hxr
          · rw [hxa]; exact ha
          · exact h x hxr
        · intro h x hx
          exact h x (List.mem_cons_of_mem a hx)
      · have hane : a ≠ "" := hne a (List.mem_cons_self a rest)
        obtain ⟨h1, h2⟩ := mainLoop_from_nonempty rest a hane
        simp only [List.foldl_cons, ha, if_false, ne_eq, not_true_eq_false,
          String.empty_append, not_false_eq_true, decide_True, List.filter_cons_of_pos]
        refine ⟨h2, ?_⟩
        constructor
        · intro h; exact absurd h h1
        · intro h; exact absurd (h a (List.mem_cons_self a rest)) ha
  refine ⟨key.1, key.2, ?_⟩
  unfold main
  rw [key.1]

theorem C20_witness :
    mainLoop ["-b", "BDT", "--batch", "MLP"] = "BDT,MLP" ∧
    (mainLoop ["-b", "BDT", "--batch", "MLP"] = "" ↔
      ∀ a, a ∈ ["-b", "BDT", "--batch", "MLP"] → a = "-b" ∨ a = "--batch") :=
  ⟨(C20_main_joins_methods ["-b", "BDT", "--batch", "MLP"] (by decide)).1.trans (by decide),
    (C20_main_joins_methods ["-b", "BDT", "--batch", "MLP"] (by decide)).2.1⟩

/-! ## Degenerate divisions -/

/-- C21 (as amended): for non-negative signal and background weights, every
candidate `i` has a strictly positive signal tail sum; the efficiency divisor
`tau_integral[0]` and the purity divisor `tau_integral[i] + charm_integral[i]` are
not zero, and efficiency, purity and their product are finite and strictly
positive. -/
theorem C21_divisions_never_degenerate (S B : TH1) (hS : ∀ k, 0 ≤ S.fArray k)
    (hB : ∀ k, 0 ≤ B.fArray k) (i : ℕ) (hi : (i : ℤ) < nbinjj S) :
    0 < (scan S B).tau_integral i ∧
    (scan S B).tau_integral 0 ≠ 0 ∧
    (scan S B).tau_integral i + (scan S B).charm_integral i ≠ 0 ∧
    ∃ e p : ℚ, (scan S B).tau_Efficiency i = FVal.fin e ∧ 0 < e ∧
      (scan S B).tau_Purity i = FVal.fin p ∧ 0 < p ∧
      (bestCut S B).EP i = some (FVal.fin (e * p)) ∧ 0 < e * p := by
  obtain ⟨h1, _⟩ := candidate_lt S i hi
  have h0 : ((0 : ℕ) : ℤ) < nbinjj S := by omega
  have hti := tail_pos S hS i hi
  have ht0 := tail_pos S hS 0 h0
  obtain ⟨hp, hden⟩ := scan_tau_Purity S B hS hB i hi
  have he := scan_tau_Efficiency S B hS i hi
  have hEP : (bestCut S B).EP i =
      some (fmul ((scan S B).tau_Efficiency i) ((scan S B).tau_Purity i)) := by
    rw [bestCut, bestLoop_EP, if_pos h1]
  refine ⟨?_, ?_, ?_, _, _, he, div_pos hti ht0, hp, div_pos hti hden, ?_,
    mul_pos (div_pos hti ht0) (div_pos hti hden)⟩
  · rw [scan_tau_integral S B i hi]; exact hti
  · rw [scan_tau_integral S B 0 h0]; exact ne_of_gt ht0
  · rw [scan_tau_integral S B i hi, scan, scanLoop_charm_integral S B _ _ i h1]
    exact ne_of_gt hden
  · rw [hEP, he, hp, fmul_fin]

/-- C21, as first stated, fails when only the background weights are non-negative:
with signal weights `-1` and `1` in bins `1` and `2` there are two candidates, the
signal tail sum of candidate `0` is `0`, its efficiency is `0/0` (not a number) and
its purity is `0`. -/
theorem C21_counterexample_negative_signal :
    (∀ k, 0 ≤ flatBackground.fArray k) ∧
    nbinjj negativeSignal = 2 ∧
    (scan negativeSignal flatBackground).tau_integral 0 = 0 ∧
    (scan negativeSignal flatBackground).tau_Efficiency 0 = FVal.nan ∧
    (scan negativeSignal flatBackground).tau_Purity 0 = FVal.fin 0 ∧
    (bestCut negativeSignal flatBackground).EP 0 = some FVal.nan := by
  refine ⟨mkTH1_nonneg _ _ _ _ (by decide), ?_, ?_, ?_, ?_, ?_⟩ <;> with_unfolding_all decide

theorem C21_witness :
    ((2 : ℕ) : ℤ) < nbinjj sampleSignal ∧
    0 < (scan sampleSignal sampleBackground).tau_integral 2 ∧
    (scan sampleSignal sampleBackground).tau_integral 0 ≠ 0 :=
  ⟨by decide,
    (C21_divisions_never_degenerate sampleSignal sampleBackground sampleSignal_nonneg
      sampleBackground_nonneg 2 (by decide)).1,
    (C21_divisions_never_degenerate sampleSignal sampleBackground sampleSignal_nonneg
      sampleBackground_nonneg 2 (by decide)).2.1⟩

/-! ## The underflow candidate -/

theorem sum_Icc_from_one (f : ℕ → ℚ) (m : ℕ) (h0 : f 0 = 0) :
    ∑ k in Finset.Icc 1 m, f k = ∑ k in Finset.Icc 0 m, f k := by
  apply Finset.sum_subset (Finset.Icc_subset_Icc_left (Nat.zero_le 1))
  intro x _ hx
  have hx0 : x = 0 := by
    by_contra hne
    apply hx
    rw [Finset.mem_Icc] at *
    omega
  rw [hx0, h0]

/-- C22 (as amended): candidate `0` is the underflow bin and candidate `1` the first
bin of the axis (its threshold is the lower end of the axis).  For non-negative weights, empty
underflow bins in both histograms and at least two candidates, the candidates `0`
and `1` have the same signal and background tails, both have efficiency `1`, they
have the same finite purity, and the best index is at least `1`. -/
theorem C22_underflow_candidate_tied (S B : TH1) (hS : ∀ k, 0 ≤ S.fArray k)
    (hB : ∀ k, 0 ≤ B.fArray k) (hS0 : S.fArray 0 = 0) (hB0 : B.fArray 0 = 0)
    (h2 : 2 ≤ nbinjj S) :
    (scan S B).cut 0 = S.GetBinLowEdge 0 ∧ (scan S B).cut 1 = S.fXmin ∧
    (scan S B).tau_integral 0 = ∑ k in Finset.Icc 0 S.fNbins, S.fArray k ∧
    (scan S B).tau_integral 1 = (scan S B).tau_integral 0 ∧
    (scan S B).charm_integral 1 = (scan S B).charm_integral 0 ∧
    (scan S B).tau_Efficiency 0 = FVal.fin 1 ∧
    (scan S B).tau_Efficiency 1 = FVal.fin 1 ∧
    (scan S B).tau_Purity 1 = (scan S B).tau_Purity 0 ∧
    (∃ p : ℚ, (scan S B).tau_Purity 0 = FVal.fin p) ∧
    1 ≤ (bestCut S B).ind := by
  have h0 : ((0 : ℕ) : ℤ) < nbinjj S := by omega
  have h1 : ((1 : ℕ) : ℤ) < nbinjj S := by omega
  obtain ⟨hn0, _⟩ := candidate_lt S 0 h0
  obtain ⟨hn1, hN1⟩ := candidate_lt S 1 h1
  have hsig : ∑ k in Finset.Icc 1 S.fNbins, S.fArray k =
      ∑ k in Finset.Icc 0 S.fNbins, S.fArray k := sum_Icc_from_one S.fArray _ hS0
  have hbkg : B.Integral ((1 : ℕ) : ℤ) S.GetNbinsX = B.Integral ((0 : ℕ) : ℤ) S.GetNbinsX := by
    unfold TH1.GetNbinsX
    rw [Integral_eq_sum_min B 1 S.fNbins hN1, Integral_eq_sum_min B 0 S.fNbins (Nat.zero_le _)]
    exact sum_Icc_from_one B.fArray _ hB0
  have hti : (scan S B).tau_integral 1 = (scan S B).tau_integral 0 := by
    rw [scan_tau_integral S B 1 h1, scan_tau_integral S B 0 h0, hsig]
  have hpos := tail_pos S hS 0 h0
  have he0 : (scan S B).tau_Efficiency 0 = FVal.fin 1 := by
    rw [scan_tau_Efficiency S B hS 0 h0, div_self (ne_of_gt hpos)]
  have he1 : (scan S B).tau_Efficiency 1 = FVal.fin 1 := by
    rw [scan_tau_Efficiency S B hS 1 h1, hsig, div_self (ne_of_gt hpos)]
  have hp0 := (scan_tau_Purity S B hS hB 0 h0).1
  have hp1 := (scan_tau_Purity S B hS hB 1 h1).1
  have hpur : (scan S B).tau_Purity 1 = (scan S B).tau_Purity 0 := by
    rw [hp1, hp0, hsig, hbkg]
  refine ⟨scanLoop_cut S B _ _ 0 hn0, ?_, scan_tau_integral S B 0 h0, hti, ?_, he0, he1,
    hpur, ⟨_, hp0⟩, ?_⟩
  · rw [scan, scanLoop_cut S B _ _ 1 hn1]
    simp [TH1.GetBinLowEdge]
  · rw [scan, scanLoop_charm_integral S B _ _ 1 hn1, scanLoop_charm_integral S B _ _ 0 hn0]
    exact hbkg
  · obtain ⟨g, hg, hbest⟩ := bestCut_spec S B hS hB
    obtain ⟨_, _, _, _, hlater⟩ := hbest (by omega)
    by_contra hlt
    have hind : (bestCut S B).ind = 0 := by omega
    have hstrict := hlater 1 h1 (by rw [hind]; exact Nat.zero_lt_one)
    rw [hind] at hstrict
    have hg0 := (hg 0 h0).1
    have hg1 := (hg 1 h1).1
    rw [he1, hpur, ← he0, hg0] at hg1
    have heq : g 0 = g 1 := by
      injection hg1
    rw [heq] at hstrict
    exact lt_irrefl _ hstrict

/-- C22, as first stated, fails when a weight is negative: `negativeSignal` and
`flatBackground` have empty underflow bins and two candidates, yet the efficiency
of both candidates is `0/0` (not a number), no product passes the comparison and
the best index stays at `0`. -/
theorem C22_counterexample_negative_weight :
    negativeSignal.fArray 0 = 0 ∧ flatBackground.fArray 0 = 0 ∧
    nbinjj negativeSignal = 2 ∧
    (scan negativeSignal flatBackground).tau_Efficiency 0 = FVal.nan ∧
    (scan negativeSignal flatBackground).tau_Efficiency 1 = FVal.nan ∧
    (bestCut negativeSignal flatBackground).ind = 0 ∧
    ¬ (1 ≤ (bestCut negativeSignal flatBackground).ind) := by
  refine ⟨rfl, rfl, ?_, ?_, ?_, ?_, ?_⟩ <;> with_unfolding_all decide

theorem C22_witness :
    scenarioSignalAxis.fArray 0 = 0 ∧ scenarioBackgroundAxis.fArray 0 = 0 ∧
    2 ≤ nbinjj scenarioSignalAxis ∧
    (scan scenarioSignalAxis scenarioBackgroundAxis).tau_Efficiency 1 = FVal.fin 1 ∧
    1 ≤ (bestCut scenarioSignalAxis scenarioBackgroundAxis).ind :=
  ⟨rfl, rfl, by decide,
    (C22_underflow_candidate_tied scenarioSignalAxis scenarioBackgroundAxis
      (mkTH1_nonneg _ _ _ _ (by decide)) (mkTH1_nonneg _ _ _ _ (by decide)) rfl rfl
      (by decide)).2.2.2.2.2.2.1,
    (C22_underflow_candidate_tied scenarioSignalAxis scenarioBackgroundAxis
      (mkTH1_nonneg _ _ _ _ (by decide)) (mkTH1_nonneg _ _ _ _ (by decide)) rfl rfl
      (by decide)).2.2.2.2.2.2.2.2.2⟩

/-! ## Array bounds -/

theorem nbinjj_le (S : TH1) : nbinjj S ≤ (S.fNbins : ℤ) := by
  rcases findLastFrom_spec S.fArray 0 S.fNbins with h | ⟨r, hr, _, h2, _⟩
  · simp only [nbinjj, TH1.FindLastBinAbove, h]
    omega
  · simp only [nbinjj, TH1.FindLastBinAbove, hr]
    exact_mod_cast h2

theorem loopSubscripts_lt (n : ℕ) (p : String × ℕ) (hp : p ∈ loopSubscripts n) :
    p.2 < n := by
  unfold loopSubscripts at hp
  rcases List.mem_append.mp hp with h | h
  · obtain ⟨l, hl, hpl⟩ := List.mem_flatten.mp h
    obtain ⟨jj, hjj, rfl⟩ := List.mem_map.mp hl
    have hlt : jj < n := List.mem_range.mp hjj
    simp only [scanBodySubscripts, List.mem_cons, List.mem_singleton, List.not_mem_nil,
      or_false] at hpl
    rcases hpl with h | h | h | h | h | h | h | h | h | h | h | h <;> rw [h] <;>
      first | exact hlt | exact Nat.lt_of_le_of_lt (Nat.zero_le jj) hlt
  · obtain ⟨l, hl, hpl⟩ := List.mem_flatten.mp h
    obtain ⟨jj, hjj, rfl⟩ := List.mem_map.mp hl
    have hlt : jj < n := List.mem_range.mp hjj
    simp only [bestBodySubscripts, List.mem_cons, List.mem_singleton, List.not_mem_nil,
      or_false] at hpl
    rcases hpl with h | h | h | h | h | h <;> rw [h] <;> exact hlt

/-- C23: for every channel the two score histograms are booked with the same number
of bins, `60` or `65`; hence `nbinjj` is at most `65`, every subscript used in the
two loops is below the array length `100`, the best index is below it, and no array
entry from index `65` on is written. -/
theorem C23_subscripts_within_arrays (channel : ℤ) (contentsS contentsB : ℕ → ℚ) :
    ((h_bdt_S channel contentsS).fNbins = 60 ∨ (h_bdt_S channel contentsS).fNbins = 65) ∧
    (h_bdt_B channel contentsB).fNbins = (h_bdt_S channel contentsS).fNbins ∧
    nbinjj (h_bdt_S channel contentsS) ≤ 65 ∧
    (∀ p ∈ loopSubscripts (nbinjj (h_bdt_S channel contentsS)).toNat, p.2 < arrayLength) ∧
    (bestCut (h_bdt_S channel contentsS) (h_bdt_B channel contentsB)).ind < arrayLength ∧
    (∀ i : ℕ, 65 ≤ i →
      (bestCut (h_bdt_S channel contentsS) (h_bdt_B channel contentsB)).EP i = none ∧
      (scan (h_bdt_S channel contentsS) (h_bdt_B channel contentsB)).cut i = scanInit.cut i ∧
      (scan (h_bdt_S channel contentsS) (h_bdt_B channel contentsB)).tau_integral i =
        scanInit.tau_integral i ∧
      (scan (h_bdt_S channel contentsS) (h_bdt_B channel contentsB)).charm_integral i =
        scanInit.charm_integral i ∧
      (scan (h_bdt_S channel contentsS) (h_bdt_B channel contentsB)).tau_Efficiency i =
        scanInit.tau_Efficiency i ∧
      (scan (h_bdt_S channel contentsS) (h_bdt_B channel contentsB)).tau_Purity i =
        scanInit.tau_Purity i) := by
  have hbins : (h_bdt_S channel contentsS).fNbins = 60 ∨
      (h_bdt_S channel contentsS).fNbins = 65 := by
    unfold h_bdt_S
    by_cases hc : channel = 2 ∨ channel = 4
    · left; rw [if_pos hc]
    · right; rw [if_neg hc]
  have hsame : (h_bdt_B channel contentsB).fNbins = (h_bdt_S channel contentsS).fNbins := by
    unfold h_bdt_S h_bdt_B
    by_cases hc : channel = 2 ∨ channel = 4
    · rw [if_pos hc, if_pos hc]
    · rw [if_neg hc, if_neg hc]
  have hle := nbinjj_le (h_bdt_S channel contentsS)
  have hn : nbinjj (h_bdt_S channel contentsS) ≤ 65 := by
    rcases hbins with h | h <;> rw [h] at hle <;> omega
  have hnat : (nbinjj (h_bdt_S channel contentsS)).toNat ≤ 65 := by omega
  have hind : (bestCut (h_bdt_S channel contentsS) (h_bdt_B channel contentsB)).ind <
      arrayLength := by
    have key : ∀ (a : ScanArrays) (n : ℕ), (bestLoop a n).ind ≤ n := by
      intro a n
      induction n with
      | zero => exact le_refl _
      | succ n ih =>
        simp only [bestLoop, bestBody]
        split
        · exact Nat.le_succ n
        · exact Nat.le_succ_of_le ih
    have := key (scan (h_bdt_S channel contentsS) (h_bdt_B channel contentsB))
      (nbinjj (h_bdt_S channel contentsS)).toNat
    unfold bestCut arrayLength
    omega
  refine ⟨hbins, hsame, hn, ?_, hind, ?_⟩
  · intro p hp
    have := loopSubscripts_lt _ p hp
    unfold arrayLength
    omega
  · intro i hi
    have hge : (nbinjj (h_bdt_S channel contentsS)).toNat ≤ i := by omega
    refine ⟨?_, scanLoop_untouched _ _ _ _ i hge⟩
    rw [bestCut, bestLoop_EP, if_neg (by omega)]

/-! ## Independence from the background -/

/-- The entries of `cut`, `tau_integral` and `tau_Efficiency` after `n` iterations do
not depend on the background histogram. -/
theorem scanLoop_signal_side (S B₁ B₂ : TH1) (bmax : ℤ) (n i : ℕ) :
    (scanLoop S B₁ bmax n).cut i = (scanLoop S B₂ bmax n).cut i ∧
    (scanLoop S B₁ bmax n).tau_integral i = (scanLoop S B₂ bmax n).tau_integral i ∧
    (scanLoop S B₁ bmax n).tau_Efficiency i = (scanLoop S B₂ bmax n).tau_Efficiency i := by
  by_cases h : i < n
  · exact ⟨by rw [scanLoop_cut S B₁ bmax n i h, scanLoop_cut S B₂ bmax n i h],
      by rw [scanLoop_tau_integral S B₁ bmax n i h, scanLoop_tau_integral S B₂ bmax n i h],
      by rw [scanLoop_tau_Efficiency S B₁ bmax n i h, scanLoop_tau_Efficiency S B₂ bmax n i h]⟩
  · obtain ⟨a1, a2, _, a4, _⟩ := scanLoop_untouched S B₁ bmax n i (by omega)
    obtain ⟨b1, b2, _, b4, _⟩ := scanLoop_untouched S B₂ bmax n i (by omega)
    exact ⟨by rw [a1, b1], by rw [a2, b2], by rw [a4, b4]⟩

/-- C24: two runs with the same signal histogram and any two background histograms
have the same candidates (the candidate count `nbinjj` is computed from the signal
histogram alone, and a product is stored for the same indices) and the same
entries of `cut`, `tau_integral` and `tau_Efficiency` at every index. -/
theorem C24_background_does_not_reach_signal_side (S B₁ B₂ : TH1) :
    (∀ i : ℕ, ((bestCut S B₁).EP i).isSome = ((bestCut S B₂).EP i).isSome) ∧
    (∀ i : ℕ, (scan S B₁).cut i = (scan S B₂).cut i) ∧
    (∀ i : ℕ, (scan S B₁).tau_integral i = (scan S B₂).tau_integral i) ∧
    (∀ i : ℕ, (scan S B₁).tau_Efficiency i = (scan S B₂).tau_Efficiency i) := by
  refine ⟨fun i => ?_, fun i => (scanLoop_signal_side S B₁ B₂ _ _ i).1,
    fun i => (scanLoop_signal_side S B₁ B₂ _ _ i).2.1,
    fun i => (scanLoop_signal_side S B₁ B₂ _ _ i).2.2⟩
  rw [bestCut, bestCut, bestLoop_EP, bestLoop_EP]
  by_cases h : i < (nbinjj S).toNat
  · rw [if_pos h, if_pos h]; rfl
  · rw [if_neg h, if_neg h]

/-! ## Rounding to `float` and `double` -/

theorem pow2_pos (k : ℤ) : 0 < pow2 k := zpow_pos (by norm_num) k

theorem pow2_add (m n : ℤ) : pow2 (m + n) = pow2 m * pow2 n :=
  zpow_add₀ (by norm_num) m n

theorem pow2_le (m n : ℤ) (h : m ≤ n) : pow2 m ≤ pow2 n :=
  zpow_le_zpow_right₀ (by norm_num) h

theorem pow2_zero : pow2 0 = 1 := zpow_zero 2

theorem pow2_natCast (n : ℕ) : pow2 (n : ℤ) = (2 : ℚ) ^ n := zpow_natCast 2 n

theorem log2Fuel_spec (fuel n : ℕ) (h1 : 1 ≤ n) (hf : n ≤ fuel) :
    2 ^ log2Fuel fuel n ≤ n ∧ n < 2 ^ (log2Fuel fuel n + 1) := by
  induction fuel generalizing n with
  | zero => omega
  | succ fuel ih =>
    unfold log2Fuel
    by_cases h2 : n < 2
    · rw [if_pos h2]
      simp
      omega
    · rw [if_neg h2]
      obtain ⟨ha, hb⟩ := ih (n / 2) (by omega) (by omega)
      rw [pow_succ] at hb ⊢
      constructor
      · omega
      · rw [pow_succ]
        omega

theorem nlog2_spec (n : ℕ) (h1 : 1 ≤ n) : 2 ^ nlog2 n ≤ n ∧ n < 2 ^ (nlog2 n + 1) :=
  log2Fuel_spec n n h1 (le_refl n)

/-- The binary exponent brackets a positive number between two powers of two. -/
theorem ilog2_spec (a : ℚ) (ha : 0 < a) : pow2 (ilog2 a) ≤ a ∧ a < pow2 (ilog2 a + 1) := by
  have hnum : 0 < a.num := Rat.num_pos.mpr ha
  have hn1 : 1 ≤ a.num.natAbs := by omega
  have hd1 : 1 ≤ a.den := a.den_pos
  obtain ⟨hA1, hA2⟩ := nlog2_spec a.num.natAbs hn1
  obtain ⟨hB1, hB2⟩ := nlog2_spec a.den hd1
  have hdq : (0 : ℚ) < (a.den : ℚ) := by exact_mod_cast hd1
  have hadef : a = (a.num.natAbs : ℚ) / (a.den : ℚ) := by
    rw [Nat.cast_natAbs, abs_of_pos hnum]
    exact (Rat.num_div_den a).symm
  set A := nlog2 a.num.natAbs with hA
  set B := nlog2 a.den with hB
  set n := a.num.natAbs with hn
  set d := a.den with hd
  have hA1q : (2 : ℚ) ^ A ≤ (n : ℚ) := by exact_mod_cast hA1
  have hA2q : (n : ℚ) < (2 : ℚ) ^ (A + 1) := by exact_mod_cast hA2
  have hB1q : (2 : ℚ) ^ B ≤ (d : ℚ) := by exact_mod_cast hB1
  have hB2q : (d : ℚ) < (2 : ℚ) ^ (B + 1) := by exact_mod_cast hB2
  have hpB : (0 : ℚ) < (2 : ℚ) ^ B := pow_pos (by norm_num) B
  have hpA : (0 : ℚ) < (2 : ℚ) ^ A := pow_pos (by norm_num) A
  have hup : a < pow2 ((A : ℤ) - (B : ℤ) + 1) := by
    have : pow2 ((A : ℤ) - (B : ℤ) + 1) = (2 : ℚ) ^ (A + 1) / (2 : ℚ) ^ B := by
      have e1 : ((A : ℤ) - (B : ℤ) + 1) = ((A + 1 : ℕ) : ℤ) + (-(B : ℤ)) := by push_cast; ring
      rw [e1, pow2_add, pow2_natCast]
      unfold pow2
      rw [zpow_neg, zpow_natCast]
      rfl
    rw [this, hadef, div_lt_div_iff₀ hdq hpB]
    calc (n : ℚ) * 2 ^ B < 2 ^ (A + 1) * 2 ^ B := by
          exact mul_lt_mul_of_pos_right hA2q hpB
      _ ≤ 2 ^ (A + 1) * (d : ℚ) := by
          exact mul_le_mul_of_nonneg_left hB1q (le_of_lt (pow_pos (by norm_num) _))
  have hlow : pow2 ((A : ℤ) - (B : ℤ) - 1) ≤ a := by
    have : pow2 ((A : ℤ) - (B : ℤ) - 1) = (2 : ℚ) ^ A / (2 : ℚ) ^ (B + 1) := by
      have e1 : ((A : ℤ) - (B : ℤ) - 1) = ((A : ℕ) : ℤ) + (-((B + 1 : ℕ) : ℤ)) := by
        push_cast; ring
      rw [e1, pow2_add, pow2_natCast]
      unfold pow2
      rw [zpow_neg, zpow_natCast]
      rfl
    rw [this, hadef, div_le_div_iff₀ (pow_pos (by norm_num) _) hdq]
    calc (2 : ℚ) ^ A * (d : ℚ) ≤ (n : ℚ) * (d : ℚ) := by
          exact mul_le_mul_of_nonneg_right hA1q (le_of_lt hdq)
      _ ≤ (n : ℚ) * 2 ^ (B + 1) := by
          exact mul_le_mul_of_nonneg_left (le_of_lt hB2q) (le_trans (le_of_lt hpA) hA1q)
  unfold ilog2
  simp only []
  by_cases hc : pow2 ((A : ℤ) - (B : ℤ)) ≤ a
  · rw [if_pos hc]
    exact ⟨hc, hup⟩
  · rw [if_neg hc]
    refine ⟨hlow, ?_⟩
    have e2 : (A : ℤ) - (B : ℤ) - 1 + 1 = (A : ℤ) - (B : ℤ) := by ring
    rw [e2]
    exact not_le.mp hc

theorem ilog2_unique (a : ℚ) (k : ℤ) (h1 : pow2 k ≤ a) (h2 : a < pow2 (k + 1)) :
    ilog2 a = k := by
  have ha : 0 < a := lt_of_lt_of_le (pow2_pos k) h1
  obtain ⟨s1, s2⟩ := ilog2_spec a ha
  rcases lt_trichotomy (ilog2 a) k with h | h | h
  · exfalso
    have := pow2_le (ilog2 a + 1) k (by omega)
    linarith
  · exact h
  · exfalso
    have := pow2_le (k + 1) (ilog2 a) (by omega)
    linarith

theorem ilog2_pow2_mul (a : ℚ) (ha : 0 < a) (j : ℤ) : ilog2 (pow2 j * a) = ilog2 a + j := by
  obtain ⟨s1, s2⟩ := ilog2_spec a ha
  apply ilog2_unique
  · rw [add_comm, pow2_add]
    exact mul_le_mul_of_nonneg_left s1 (le_of_lt (pow2_pos j))
  · have e : ilog2 a + j + 1 = j + (ilog2 a + 1) := by ring
    rw [e, pow2_add]
    exact mul_lt_mul_of_pos_left s2 (pow2_pos j)

theorem pow2_neg_mul_self (j : ℤ) : pow2 (-j) * pow2 j = 1 := by
  rw [← pow2_add, neg_add_cancel, pow2_zero]

/-- Rounding commutes with a multiplication by a power of two. -/
theorem roundSig_pow2_mul (p : ℕ) (j : ℤ) (q : ℚ) :
    roundSig p (pow2 j * q) = pow2 j * roundSig p q := by
  by_cases hq : q = 0
  · simp [roundSig, hq]
  · have hj := pow2_pos j
    have hne : pow2 j * q ≠ 0 := mul_ne_zero (ne_of_gt hj) hq
    have habs : |pow2 j * q| = pow2 j * |q| := by rw [abs_mul, abs_of_pos hj]
    have hapos : 0 < |q| := abs_pos.mpr hq
    have he : ilog2 (pow2 j * |q|) = ilog2 |q| + j := ilog2_pow2_mul |q| hapos j
    have harg : pow2 j * |q| * pow2 ((p : ℤ) - 1 - (ilog2 |q| + j)) =
        |q| * pow2 ((p : ℤ) - 1 - ilog2 |q|) := by
      have e1 : (p : ℤ) - 1 - (ilog2 |q| + j) = ((p : ℤ) - 1 - ilog2 |q|) + (-j) := by ring
      rw [e1, pow2_add]
      have := pow2_neg_mul_self j
      calc pow2 j * |q| * (pow2 ((p : ℤ) - 1 - ilog2 |q|) * pow2 (-j))
          = |q| * pow2 ((p : ℤ) - 1 - ilog2 |q|) * (pow2 (-j) * pow2 j) := by ring
        _ = |q| * pow2 ((p : ℤ) - 1 - ilog2 |q|) := by rw [this, mul_one]
    have hsign : (0 < pow2 j * q) ↔ (0 < q) :=
      ⟨fun h => pos_of_mul_pos_right h (le_of_lt hj), fun h => mul_pos hj h⟩
    have hexp : pow2 (ilog2 |q| + j - ((p : ℤ) - 1)) = pow2 j * pow2 (ilog2 |q| - ((p : ℤ) - 1)) := by
      have e2 : ilog2 |q| + j - ((p : ℤ) - 1) = j + (ilog2 |q| - ((p : ℤ) - 1)) := by ring
      rw [e2, pow2_add]
    simp only [roundSig, hq, hne, if_false, habs, he, harg, hsign, hexp]
    ring

theorem roundSig_neg (p : ℕ) (q : ℚ) : roundSig p (-q) = -roundSig p q := by
  by_cases hq : q = 0
  · simp [roundSig, hq]
  · have hne : -q ≠ 0 := neg_ne_zero.mpr hq
    simp only [roundSig, hq, hne, if_false, abs_neg]
    rcases lt_or_gt_of_ne hq with h | h
    · have h1 : 0 < -q := neg_pos.mpr h
      have h2 : ¬ (0 < q) := not_lt.mpr (le_of_lt h)
      simp only [h1, h2, if_true, if_false]
      ring
    · have h1 : ¬ (0 < -q) := by
        intro h'
        have := neg_pos.mp h'
        exact absurd h (not_lt.mpr (le_of_lt this))
      simp only [h1, h, if_true, if_false]
      ring

theorem floor_le_roundHalfEven (m : ℚ) : ⌊m⌋ ≤ roundHalfEven m := by
  unfold roundHalfEven
  simp only []
  split_ifs <;> omega

theorem roundHalfEven_intCast (z : ℤ) : roundHalfEven (z : ℚ) = z := by
  unfold roundHalfEven
  simp

/-- A positive number rounds to a positive number. -/
theorem roundSig_pos (p : ℕ) (hp : 1 ≤ p) (q : ℚ) (hq : 0 < q) : 0 < roundSig p q := by
  have hne : q ≠ 0 := ne_of_gt hq
  obtain ⟨s1, _⟩ := ilog2_spec |q| (abs_pos.mpr hne)
  have hm : (1 : ℚ) ≤ |q| * pow2 ((p : ℤ) - 1 - ilog2 |q|) := by
    have h1 : pow2 ((p : ℤ) - 1) ≤ |q| * pow2 ((p : ℤ) - 1 - ilog2 |q|) := by
      have e : (p : ℤ) - 1 = ilog2 |q| + ((p : ℤ) - 1 - ilog2 |q|) := by ring
      calc pow2 ((p : ℤ) - 1) = pow2 (ilog2 |q|) * pow2 ((p : ℤ) - 1 - ilog2 |q|) := by
            rw [← pow2_add, ← e]
        _ ≤ |q| * pow2 ((p : ℤ) - 1 - ilog2 |q|) :=
            mul_le_mul_of_nonneg_right s1 (le_of_lt (pow2_pos _))
    have h2 : (1 : ℚ) ≤ pow2 ((p : ℤ) - 1) := by
      rw [← pow2_zero]
      exact pow2_le 0 _ (by omega)
    linarith
  have hr : 1 ≤ roundHalfEven (|q| * pow2 ((p : ℤ) - 1 - ilog2 |q|)) := by
    have hf : (1 : ℤ) ≤ ⌊|q| * pow2 ((p : ℤ) - 1 - ilog2 |q|)⌋ := by
      rw [Int.le_floor]
      exact_mod_cast hm
    exact le_trans hf (floor_le_roundHalfEven _)
  simp only [roundSig, hne, if_false, hq, if_true]
  apply mul_pos _ (pow2_pos _)
  exact_mod_cast lt_of_lt_of_le (by norm_num : (0 : ℤ) < 1) hr

/-- A number that is not positive does not round to a positive number. -/
theorem roundSig_nonpos (p : ℕ) (hp : 1 ≤ p) (q : ℚ) (hq : q ≤ 0) : roundSig p q ≤ 0 := by
  rcases eq_or_lt_of_le hq with h | h
  · simp [roundSig, h]
  · have := roundSig_pos p hp (-q) (neg_pos.mpr h)
    rw [roundSig_neg] at this
    linarith

/-- A number with `p` digits is kept by the rounding to `p'` digits when `p <= p'`. -/
theorem roundSig_of_fixed (p p' : ℕ) (hpp : p ≤ p') (x : ℚ) (hx : roundSig p x = x) :
    roundSig p' x = x := by
  by_cases h0 : x = 0
  · simp [roundSig, h0]
  · set e := ilog2 |x| with he
    set r := roundHalfEven (|x| * pow2 ((p : ℤ) - 1 - e)) with hr
    have hfloor : (0 : ℤ) ≤ r := by
      have h1 : (0 : ℚ) ≤ |x| * pow2 ((p : ℤ) - 1 - e) :=
        mul_nonneg (abs_nonneg x) (le_of_lt (pow2_pos _))
      have h2 : (0 : ℤ) ≤ ⌊|x| * pow2 ((p : ℤ) - 1 - e)⌋ := by
        rw [Int.le_floor]
        exact_mod_cast h1
      exact le_trans h2 (floor_le_roundHalfEven _)
    have habs : |x| = (r : ℚ) * pow2 (e - ((p : ℤ) - 1)) := by
      have hx' := hx
      simp only [roundSig, h0, if_false] at hx'
      rw [← he, ← hr] at hx'
      have hrq : (0 : ℚ) ≤ (r : ℚ) := by exact_mod_cast hfloor
      have hpos := pow2_pos (e - ((p : ℤ) - 1))
      by_cases hs : 0 < x
      · rw [if_pos hs] at hx'
        rw [abs_of_pos hs, hx']
      · rw [if_neg hs] at hx'
        have hneg : x < 0 := lt_of_le_of_ne (not_lt.mp hs) h0
        rw [abs_of_neg hneg, ← hx']
        ring
    have hm' : |x| * pow2 ((p' : ℤ) - 1 - e) = ((r * 2 ^ (p' - p) : ℤ) : ℚ) := by
      rw [habs]
      have e1 : pow2 (e - ((p : ℤ) - 1)) * pow2 ((p' : ℤ) - 1 - e) = pow2 (((p' - p : ℕ) : ℤ)) := by
        rw [← pow2_add]
        congr 1
        omega
      rw [mul_assoc, e1, pow2_natCast]
      push_cast
      ring
    have hr' : roundHalfEven (|x| * pow2 ((p' : ℤ) - 1 - e)) = r * 2 ^ (p' - p) := by
      rw [hm', roundHalfEven_intCast]
    have hback : ((r * 2 ^ (p' - p) : ℤ) : ℚ) * pow2 (e - ((p' : ℤ) - 1)) = |x| := by
      rw [← hm', mul_assoc, ← pow2_add]
      have e3 : (p' : ℤ) - 1 - e + (e - ((p' : ℤ) - 1)) = 0 := by ring
      rw [e3, pow2_zero, mul_one]
    simp only [roundSig, h0, if_false]
    rw [← he, hr']
    by_cases hs : 0 < x
    · rw [if_pos hs, hback, abs_of_pos hs]
    · rw [if_neg hs]
      have hneg : x < 0 := lt_of_le_of_ne (not_lt.mp hs) h0
      rw [neg_mul, hback, abs_of_neg hneg, neg_neg]

theorem toFloat_toDouble_of_float (x : ℚ) (hx : toFloat x = x) : toFloat (toDouble x) = x := by
  have h1 : toDouble x = x := roundSig_of_fixed 24 53 (by norm_num) x hx
  rw [h1, hx]

theorem scale_pow2_of_float (j : ℤ) (x : ℚ) (hx : toFloat x = x) :
    toFloat (toDouble (pow2 j * x)) = pow2 j * x := by
  unfold toFloat toDouble
  rw [roundSig_pow2_mul, roundSig_pow2_mul]
  have := toFloat_toDouble_of_float x hx
  unfold toFloat toDouble at this
  rw [this]

theorem scale_pos_iff (c x : ℚ) (hc : 0 < c) : 0 < toFloat (toDouble (c * x)) ↔ 0 < x := by
  constructor
  · intro h
    by_contra hx
    have h1 : c * x ≤ 0 := mul_nonpos_of_nonneg_of_nonpos (le_of_lt hc) (not_lt.mp hx)
    have h2 := roundSig_nonpos 53 (by norm_num) _ h1
    have h3 := roundSig_nonpos 24 (by norm_num) _ h2
    unfold toFloat toDouble at h
    linarith
  · intro h
    exact roundSig_pos 24 (by norm_num) _ (roundSig_pos 53 (by norm_num) _ (mul_pos hc h))

/-! ## Scaling of the histograms -/

theorem findLastFrom_congr (f g : ℕ → ℚ) (t : ℚ) (h : ∀ k, t < f k ↔ t < g k) (n : ℕ) :
    findLastFrom f t n = findLastFrom g t n := by
  induction n with
  | zero => rfl
  | succ n ih =>
    unfold findLastFrom
    by_cases hc : f (n + 1) > t
    · rw [if_pos hc, if_pos ((h (n + 1)).mp hc)]
    · rw [if_neg hc, if_neg (fun hg => hc ((h (n + 1)).mpr hg)), ih]

/-- `Scale` by a positive factor keeps the last bin with positive content. -/
theorem nbinjj_Scale (S : TH1) (c : ℚ) (hc : 0 < c) : nbinjj (S.Scale c) = nbinjj S :=
  findLastFrom_congr _ _ 0 (fun k => scale_pos_iff c (S.fArray k) hc) S.fNbins

/-- `Scale` by a power of two multiplies `float` contents exactly. -/
theorem Scale_pow2_fArray (S : TH1) (hS : ∀ k, toFloat (S.fArray k) = S.fArray k) (j : ℤ) :
    (S.Scale (pow2 j)).fArray = fun k => pow2 j * S.fArray k := by
  funext k
  exact scale_pow2_of_float j (S.fArray k) (hS k)

theorem Rounded_sumBins_snoc (c : ℕ → ℚ) (lo n : ℕ) :
    Rounded.sumBins c lo (n + 1) = toDouble (Rounded.sumBins c lo n + c (lo + n)) := by
  simp [Rounded.sumBins, List.range_succ, List.foldl_append]

theorem Rounded_sumBins_pow2 (f : ℕ → ℚ) (j : ℤ) (lo n : ℕ) :
    Rounded.sumBins (fun k => pow2 j * f k) lo n = pow2 j * Rounded.sumBins f lo n := by
  induction n with
  | zero => simp [Rounded.sumBins]
  | succ n ih =>
    rw [Rounded_sumBins_snoc, Rounded_sumBins_snoc, ih, ← mul_add]
    exact roundSig_pow2_mul 53 j _

/-- The `double` integral of a histogram scaled by a power of two. -/
theorem Rounded_Integral_Scale_pow2 (S : TH1) (hS : ∀ k, toFloat (S.fArray k) = S.fArray k)
    (j : ℤ) (b1 b2 : ℤ) :
    Rounded.Integral (S.Scale (pow2 j)) b1 b2 = pow2 j * Rounded.Integral S b1 b2 := by
  unfold Rounded.Integral
  rw [Scale_pow2_fArray S hS j]
  exact Rounded_sumBins_pow2 S.fArray j _ _

theorem fdivF_pow2 (j : ℤ) (a b : ℚ) : fdivF (pow2 j * a) (pow2 j * b) = fdivF a b := by
  have hc := pow2_pos j
  unfold fdivF
  by_cases hb : b = 0
  · subst hb
    simp only [ne_eq, mul_zero, not_true_eq_false, if_false]
    have h1 : (0 < pow2 j * a) ↔ (0 < a) :=
      ⟨fun h => pos_of_mul_pos_right h (le_of_lt hc), fun h => mul_pos hc h⟩
    have h2 : (pow2 j * a < 0) ↔ (a < 0) := by
      constructor
      · intro h
        by_contra hna
        exact absurd h (not_lt.mpr (mul_nonneg (le_of_lt hc) (not_lt.mp hna)))
      · intro h
        exact mul_neg_of_pos_of_neg hc h
    simp only [h1, h2]
  · have hcb : pow2 j * b ≠ 0 := mul_ne_zero (ne_of_gt hc) hb
    simp only [ne_eq, hb, hcb, not_false_eq_true, if_true]
    rw [mul_div_mul_left a b (ne_of_gt hc)]

/-- Entries of the `float` arrays at an index reached by the loop. -/
theorem Rounded_scanLoop_written (S B : TH1) (bmax : ℤ) (n i : ℕ) (hi : i < n) :
    (Rounded.scanLoop S B bmax n).cut i = toFloat (Rounded.GetBinLowEdge S (i : ℤ)) ∧
    (Rounded.scanLoop S B bmax n).tau_integral i = toFloat (Rounded.Integral S (i : ℤ) bmax) ∧
    (Rounded.scanLoop S B bmax n).charm_integral i =
      toFloat (Rounded.Integral B (i : ℤ) bmax) := by
  induction n with
  | zero => omega
  | succ n ih =>
    simp only [Rounded.scanLoop, Rounded.scanBody, Function.update_apply]
    by_cases h : i = n
    · simp [h]
    · rw [if_neg h, if_neg h, if_neg h]; exact ih (by omega)

theorem Rounded_scanLoop_tau_Efficiency (S B : TH1) (bmax : ℤ) (n i : ℕ) (hi : i < n) :
    (Rounded.scanLoop S B bmax n).tau_Efficiency i =
      fdivF (toFloat (Rounded.Integral S (i : ℤ) bmax))
        (toFloat (Rounded.Integral S (0 : ℤ) bmax)) := by
  induction n with
  | zero => omega
  | succ n ih =>
    simp only [Rounded.scanLoop, Rounded.scanBody, Function.update_apply]
    by_cases h : i = n
    · subst h
      by_cases h0 : 0 = i
      · subst h0; simp
      · have := (Rounded_scanLoop_written S B bmax i 0 (by omega)).2.1
        simp [h0, this]
    · rw [if_neg h]; exact ih (by omega)

theorem Rounded_scanLoop_tau_Purity (S B : TH1) (bmax : ℤ) (n i : ℕ) (hi : i < n) :
    (Rounded.scanLoop S B bmax n).tau_Purity i =
      fdivF (toFloat (Rounded.Integral S (i : ℤ) bmax))
        (toFloat (toFloat (Rounded.Integral S (i : ℤ) bmax) +
          toFloat (Rounded.Integral B (i : ℤ) bmax))) := by
  induction n with
  | zero => omega
  | succ n ih =>
    simp only [Rounded.scanLoop, Rounded.scanBody, Function.update_apply]
    by_cases h : i = n
    · simp [h]
    · rw [if_neg h]; exact ih (by omega)

theorem Rounded_scanLoop_untouched (S B : TH1) (bmax : ℤ) (n i : ℕ) (hi : n ≤ i) :
    (Rounded.scanLoop S B bmax n).cut i = scanInit.cut i ∧
    (Rounded.scanLoop S B bmax n).tau_Efficiency i = scanInit.tau_Efficiency i ∧
    (Rounded.scanLoop S B bmax n).tau_Purity i = scanInit.tau_Purity i := by
  induction n with
  | zero => exact ⟨rfl, rfl, rfl⟩
  | succ n ih =>
    have hne : i ≠ n := by omega
    obtain ⟨h1, h2, h3⟩ := ih (by omega)
    simp only [Rounded.scanLoop, Rounded.scanBody, Function.update_apply, if_neg hne]
    exact ⟨h1, h2, h3⟩

/-- The second loop reads the arrays `tau_Efficiency`, `tau_Purity` and `cut` only. -/
theorem Rounded_bestLoop_congr (a b : ScanArrays) (he : a.tau_Efficiency = b.tau_Efficiency)
    (hp : a.tau_Purity = b.tau_Purity) (hc : a.cut = b.cut) (n : ℕ) :
    Rounded.bestLoop a n = Rounded.bestLoop b n := by
  induction n with
  | zero => rfl
  | succ n ih => simp only [Rounded.bestLoop, Rounded.bestBody, he, hp, hc, ih]

/-- Efficiencies after a scaling of the signal histogram by a power of two. -/
theorem Rounded_scan_tau_Efficiency_pow2 (S B₁ B₂ : TH1)
    (hS : ∀ k, toFloat (S.fArray k) = S.fArray k) (j : ℤ) (i : ℕ) :
    (Rounded.scan (S.Scale (pow2 j)) B₁).tau_Efficiency i =
      (Rounded.scan S B₂).tau_Efficiency i := by
  have hn := nbinjj_Scale S (pow2 j) (pow2_pos j)
  have hx : (S.Scale (pow2 j)).GetNbinsX = S.GetNbinsX := rfl
  unfold Rounded.scan
  rw [hn, hx]
  by_cases h : i < (nbinjj S).toNat
  · rw [Rounded_scanLoop_tau_Efficiency _ _ _ _ i h, Rounded_scanLoop_tau_Efficiency _ _ _ _ i h,
      Rounded_Integral_Scale_pow2 S hS, Rounded_Integral_Scale_pow2 S hS]
    unfold toFloat
    rw [roundSig_pow2_mul, roundSig_pow2_mul, fdivF_pow2]
  · rw [(Rounded_scanLoop_untouched _ _ _ _ i (by omega)).2.1,
      (Rounded_scanLoop_untouched _ _ _ _ i (by omega)).2.1]

/-- Purities after a scaling of both histograms by the same power of two. -/
theorem Rounded_scan_tau_Purity_pow2 (S B : TH1)
    (hS : ∀ k, toFloat (S.fArray k) = S.fArray k)
    (hB : ∀ k, toFloat (B.fArray k) = B.fArray k) (j : ℤ) (i : ℕ) :
    (Rounded.scan (S.Scale (pow2 j)) (B.Scale (pow2 j))).tau_Purity i =
      (Rounded.scan S B).tau_Purity i := by
  have hn := nbinjj_Scale S (pow2 j) (pow2_pos j)
  have hx : (S.Scale (pow2 j)).GetNbinsX = S.GetNbinsX := rfl
  unfold Rounded.scan
  rw [hn, hx]
  by_cases h : i < (nbinjj S).toNat
  · rw [Rounded_scanLoop_tau_Purity _ _ _ _ i h, Rounded_scanLoop_tau_Purity _ _ _ _ i h,
      Rounded_Integral_Scale_pow2 S hS, Rounded_Integral_Scale_pow2 B hB]
    unfold toFloat
    rw [roundSig_pow2_mul, roundSig_pow2_mul, ← mul_add, roundSig_pow2_mul, fdivF_pow2]
  · rw [(Rounded_scanLoop_untouched _ _ _ _ i (by omega)).2.2,
      (Rounded_scanLoop_untouched _ _ _ _ i (by omega)).2.2]

/-- Thresholds do not depend on the contents. -/
theorem Rounded_scan_cut_Scale (S B₁ B₂ : TH1) (c : ℚ) (hc : 0 < c) (i : ℕ) :
    (Rounded.scan (S.Scale c) B₁).cut i = (Rounded.scan S B₂).cut i := by
  have hn := nbinjj_Scale S c hc
  have hx : (S.Scale c).GetNbinsX = S.GetNbinsX := rfl
  unfold Rounded.scan
  rw [hn, hx]
  by_cases h : i < (nbinjj S).toNat
  · rw [(Rounded_scanLoop_written _ _ _ _ i h).1, (Rounded_scanLoop_written _ _ _ _ i h).1]
    rfl
  · rw [(Rounded_scanLoop_untouched _ _ _ _ i (by omega)).1,
      (Rounded_scanLoop_untouched _ _ _ _ i (by omega)).1]

/-- C25 (as amended): in the `float` arithmetic of the program (within the range of
the exponent), `Scale` by any positive constant leaves the candidate count
unchanged; `Scale` of both histograms by the same power of two leaves every
efficiency, every purity and the whole result of the best-cut search, the index
`ind` in particular, unchanged, and `Scale` of the signal histogram alone by a
power of two leaves every efficiency unchanged. -/
theorem C25_scale_by_power_of_two (S B : TH1)
    (hS : ∀ k, toFloat (S.fArray k) = S.fArray k)
    (hB : ∀ k, toFloat (B.fArray k) = B.fArray k) :
    (∀ c : ℚ, 0 < c → nbinjj (S.Scale c) = nbinjj S) ∧
    ∀ j : ℤ,
      (∀ i : ℕ, (Rounded.scan (S.Scale (pow2 j)) (B.Scale (pow2 j))).tau_Efficiency i =
        (Rounded.scan S B).tau_Efficiency i) ∧
      (∀ i : ℕ, (Rounded.scan (S.Scale (pow2 j)) (B.Scale (pow2 j))).tau_Purity i =
        (Rounded.scan S B).tau_Purity i) ∧
      Rounded.bestCut (S.Scale (pow2 j)) (B.Scale (pow2 j)) = Rounded.bestCut S B ∧
      (Rounded.bestCut (S.Scale (pow2 j)) (B.Scale (pow2 j))).ind =
        (Rounded.bestCut S B).ind ∧
      (∀ i : ℕ, (Rounded.scan (S.Scale (pow2 j)) B).tau_Efficiency i =
        (Rounded.scan S B).tau_Efficiency i) := by
  refine ⟨fun c hc => nbinjj_Scale S c hc, fun j => ?_⟩
  have heff := Rounded_scan_tau_Efficiency_pow2 S (B.Scale (pow2 j)) B hS j
  have hpur := Rounded_scan_tau_Purity_pow2 S B hS hB j
  have hcut := Rounded_scan_cut_Scale S (B.Scale (pow2 j)) B (pow2 j) (pow2_pos j)
  have hbest : Rounded.bestCut (S.Scale (pow2 j)) (B.Scale (pow2 j)) = Rounded.bestCut S B := by
    unfold Rounded.bestCut
    rw [nbinjj_Scale S (pow2 j) (pow2_pos j)]
    exact Rounded_bestLoop_congr _ _ (funext heff) (funext hpur) (funext hcut) _
  exact ⟨heff, hpur, hbest, by rw [hbest], Rounded_scan_tau_Efficiency_pow2 S B B hS j⟩

/-- C25, as first stated, fails for the factor `0.1`: on `tiedSignal` and
`tiedBackground` the three candidates have the same stored product and the best
index is `2`; after `Scale(0.1)` of both histograms the efficiency of candidate `2`
is one unit in the last place lower (also when the signal histogram alone is
scaled), the purity of candidate `0` is as before, and the best index is `1`.  The
best index moves in the same way when the same contents sit in the histograms
booked for channel `1`. -/
theorem C25_counterexample_factor_one_tenth :
    (Rounded.bestCut tiedSignal tiedBackground).ind = 2 ∧
    (Rounded.bestCut (tiedSignal.Scale (toDouble (1 / 10)))
      (tiedBackground.Scale (toDouble (1 / 10)))).ind = 1 ∧
    (Rounded.scan tiedSignal tiedBackground).tau_Efficiency 2 =
      FVal.fin (11184811 / 16777216) ∧
    (Rounded.scan (tiedSignal.Scale (toDouble (1 / 10)))
      (tiedBackground.Scale (toDouble (1 / 10)))).tau_Efficiency 2 =
      FVal.fin (11184810 / 16777216) ∧
    (Rounded.scan (tiedSignal.Scale (toDouble (1 / 10)))
      (tiedBackground.Scale (toDouble (1 / 10)))).tau_Purity 0 =
      FVal.fin (11184811 / 16777216) ∧
    (Rounded.scan (tiedSignal.Scale (toDouble (1 / 10))) tiedBackground).tau_Efficiency 2 =
      FVal.fin (11184810 / 16777216) ∧
    (Rounded.bestCut (h_bdt_S 1 tiedSignal.fArray) (h_bdt_B 1 tiedBackground.fArray)).ind = 2 ∧
    (Rounded.bestCut ((h_bdt_S 1 tiedSignal.fArray).Scale (toDouble (1 / 10)))
      ((h_bdt_B 1 tiedBackground.fArray).Scale (toDouble (1 / 10)))).ind = 1 := by
  refine ⟨?_, ?_, ?_, ?_, ?_, ?_, ?_, ?_⟩ <;> decide!

theorem mkTH1_float (n : ℕ) (lo hi : ℚ) (l : List ℚ) (h : ∀ x ∈ l, toFloat x = x) (k : ℕ) :
    toFloat ((mkTH1 n lo hi l).fArray k) = (mkTH1 n lo hi l).fArray k := by
  simp only [mkTH1, List.getD_eq_getElem?_getD]
  rcases hk : l[k]? with _ | x
  · simp [toFloat, roundSig]
  · simp only [Option.getD_some]
    exact h x (List.getElem?_mem hk)

theorem C25_witness :
    nbinjj (tiedSignal.Scale (toDouble (1 / 10))) = nbinjj tiedSignal ∧
    (Rounded.bestCut (tiedSignal.Scale (pow2 1)) (tiedBackground.Scale (pow2 1))).ind =
      (Rounded.bestCut tiedSignal tiedBackground).ind :=
  ⟨(C25_scale_by_power_of_two tiedSignal tiedBackground
      (mkTH1_float _ _ _ _ (by decide!)) (mkTH1_float _ _ _ _ (by decide!))).1
      (toDouble (1 / 10)) (by decide!),
    ((C25_scale_by_power_of_two tiedSignal tiedBackground
      (mkTH1_float _ _ _ _ (by decide!)) (mkTH1_float _ _ _ _ (by decide!))).2 1).2.2.2.1⟩

end BDTAna
